import Mathlib

/-!
Verification development for the `nuke_parser` repository (scene-script parser
in `nuke_parser/parser.py` and `nuke_parser/stack.py`).

The parser is shallowly embedded: Python objects with identity become indices
into an explicit heap (`Heap := List NodeData`), the line-oriented parsing loop
of `_parseNk` becomes a structurally recursive function over the list of input
lines, and Python exceptions become an explicit error type `PErr`.

Modelled environment (external inputs fixed, as in a concrete test run):
* lines are the result of `file.readlines()`, i.e. each line keeps its trailing
  newline (except possibly the last);
* the environment variable NK_PARSER_EXPERIMENTAL is unset, so the
  `addUserKnob` branch of `_parseNk` falls through to the ordinary knob path;
* the file system is empty apart from the parsed line stream, so
  `_parseLiveGroup` raises an I/O error as soon as it tries to open a `file`
  knob (and is a no-op when the knob is absent or falsy, as in the source);
* the gizmo registry (`gizmos` parameter of `_parseNk`) is an explicit
  parameter, as in the source.

Strings are processed as `List Char`; Python's `\w` and `\s` classes are
modelled over the ASCII range used by the scene-script format.
-/

namespace NukeParser

/-- Python `\w` character class (ASCII range): letters, digits, underscore. -/
def isWordChar (c : Char) : Bool := c.isAlphanum || c = '_'

/-- Character class `[\w_\.]` / `[\w\.]`: word characters plus the dot. -/
def isWordDotChar (c : Char) : Bool := isWordChar c || c = '.'

/-- Python `\s` character class (ASCII range). -/
def isPySpace (c : Char) : Bool :=
  c = ' ' || c = '\t' || c = '\n' || c = '\r' || c = '\x0b' || c = '\x0c'

/-- Substring test (`pat in s` for Python strings, with a nonempty pattern). -/
def containsSubL (pat : List Char) : List Char → Bool
  | [] => pat.isEmpty
  | c :: rest => pat.isPrefixOf (c :: rest) || containsSubL pat rest

/-- Fueled scan for `str.count` (the fuel only serves structural recursion:
each step either moves one character or skips a matched occurrence, so fuel
equal to the list length, as supplied by `countSubL`, is never exhausted). -/
def countSubFuel (p : Char) (ps : List Char) : Nat → List Char → Nat
  | 0, _ => 0
  | _ + 1, [] => 0
  | fuel + 1, c :: rest =>
    if (p :: ps).isPrefixOf (c :: rest) then 1 + countSubFuel p ps fuel (rest.drop ps.length)
    else countSubFuel p ps fuel rest

/-- `str.count` for a nonempty pattern `p :: ps`: number of non-overlapping
occurrences, scanning left to right. -/
def countSubL (p : Char) (ps : List Char) (l : List Char) : Nat :=
  countSubFuel p ps l.length l

/-- Fueled scan for `str.replace` (same fuel discipline as `countSubFuel`). -/
def replaceSubFuel (p : Char) (ps : List Char) (repl : List Char) : Nat → List Char → List Char
  | 0, l => l
  | _ + 1, [] => []
  | fuel + 1, c :: rest =>
    if (p :: ps).isPrefixOf (c :: rest) then repl ++ replaceSubFuel p ps repl fuel (rest.drop ps.length)
    else c :: replaceSubFuel p ps repl fuel rest

/-- `str.replace` for a nonempty pattern `p :: ps`: replace all non-overlapping
occurrences, scanning left to right. -/
def replaceSubL (p : Char) (ps : List Char) (repl : List Char) (l : List Char) : List Char :=
  replaceSubFuel p ps repl l.length l

/-- `line.count('"')` as an integer. -/
def countChar (c : Char) (l : List Char) : Nat := l.count c

/-- `line.count('"') - line.count('\\"')`, the quote balance contribution of a
line in the multi-line string loop of `_parseNk`. -/
def quoteCount (l : List Char) : Int :=
  (countChar '"' l : Int) - (countSubL '\\' ['"'] l : Int)

/-- `line.count("{") - line.count("}")`, the brace balance contribution of a
line in the multi-line block loop of `_parseNk`. -/
def braceCount (l : List Char) : Int :=
  (countChar '{' l : Int) - (countChar '}' l : Int)

/-- Drop a single trailing newline, as Python's `$` anchor (no MULTILINE)
matches either at the end of the string or just before a final newline. -/
def stripNl (l : List Char) : List Char :=
  if l.getLast? = some '\n' then l.dropLast else l

/-- Maximal run of word characters at the front (`\w+`, greedy). -/
def wordRun : List Char → List Char × List Char
  | [] => ([], [])
  | c :: rest =>
    if isWordChar c then
      let (w, r) := wordRun rest
      (c :: w, r)
    else ([], c :: rest)

/-- Left-to-right scan used to model `re.search`: try the matcher at every
suffix and return the first (leftmost) hit. -/
def scanFor (f : List Char → Option α) : List Char → Option α
  | [] => f []
  | c :: rest =>
    match f (c :: rest) with
    | some x => some x
    | none => scanFor f rest

/-- Match `set (?P<key>\w+) \[stack \d\]` at the start of `s`
(`_BRANCH_STACK_RE`). -/
def branchKeyAt? (s : List Char) : Option (List Char) :=
  if ("set ".toList).isPrefixOf s then
    let (w, r) := wordRun (s.drop 4)
    if w.isEmpty then none
    else if (" [stack ".toList).isPrefixOf r then
      match r.drop 8 with
      | d :: ']' :: _ => if d.isDigit then some w else none
      | _ => none
    else none
  else none

/-- `_BRANCH_STACK_RE.search(line).group("key")`. -/
def branchKey? (l : List Char) : Option (List Char) := scanFor branchKeyAt? l

/-- Match `push \$(?P<key>\w+)` at the start of `s` (`_PUSH_RE`). -/
def pushKeyAt? (s : List Char) : Option (List Char) :=
  if ("push $".toList).isPrefixOf s then
    let (w, _) := wordRun (s.drop 6)
    if w.isEmpty then none else some w
  else none

/-- `_PUSH_RE.search(line).group("key")`. -/
def pushKey? (l : List Char) : Option (List Char) := scanFor pushKeyAt? l

/-- Match `clone \$(?P<key>\w+)\s\{` at the start of `s` (`_CLONE_RE`). -/
def cloneKeyAt? (s : List Char) : Option (List Char) :=
  if ("clone $".toList).isPrefixOf s then
    let (w, r) := wordRun (s.drop 7)
    if w.isEmpty then none
    else
      match r with
      | c1 :: c2 :: _ => if isPySpace c1 && c2 = '{' then some w else none
      | _ => none
  else none

/-- `_CLONE_RE.search(line).group("key")`. -/
def cloneKey? (l : List Char) : Option (List Char) := scanFor cloneKeyAt? l

/-- `_NODE_OPEN_RE = ([\w\.]+)\s\{$` searched in `line`: the line (up to a
final newline) must end in a maximal nonempty word-dot run, one whitespace
character, then an opening brace. Returns the `type` group. -/
def nodeOpenType? (line : List Char) : Option (List Char) :=
  match (stripNl line).reverse with
  | '{' :: c :: rest =>
    if isPySpace c then
      let w := rest.takeWhile isWordDotChar
      if w.isEmpty then none else some w.reverse
    else none
  | _ => none

/-- `_NODE_CLOSE_RE = \}$` searched in `line`. -/
def nodeCloseMatch (line : List Char) : Bool := (stripNl line).getLast? = some '}'

/-- First-character class of the `value` group of `_NODE_KNOB_RE`:
`(:?\"|\w|\{|-|/)`. Note the `(:?` typo in the source: the group matches an
optional colon followed by a quote, or a single word char, brace, dash or
slash. -/
def valueStartOk (c : Char) (rest : List Char) : Bool :=
  c = '"' || isWordChar c || c = '{' || c = '-' || c = '/' ||
    (c = ':' && rest.head? = some '"')

/-- Maximal run of word-dot characters at the front (`[\w_\.]+`, greedy). -/
def wordDotRun : List Char → List Char × List Char
  | [] => ([], [])
  | c :: rest =>
    if isWordDotChar c then
      let (w, r) := wordDotRun rest
      (c :: w, r)
    else ([], c :: rest)

/-- `_NODE_KNOB_RE = ^\s*(?P<key>[\w_\.]+)[ ]+(?P<value>(:?\"|\w|\{|-|/).*)`
matched against `line` (anchored at the start; `.` does not match newline).
Returns `(key, value)`. -/
def nodeKnob? (line : List Char) : Option (List Char × List Char) :=
  let t := line.dropWhile isPySpace
  let (k, r) := wordDotRun t
  if k.isEmpty then none
  else
    let sp := r.takeWhile (· = ' ')
    if sp.isEmpty then none
    else
      match r.dropWhile (· = ' ') with
      | [] => none
      | c :: cs =>
        if valueStartOk c cs then some (k, (c :: cs).takeWhile (· ≠ '\n')) else none

/-- Decoded knob values. `decodeKnob` in the source runs the value through
`json.loads`; the fragment of JSON exercised by the scene-script format is
integers, the booleans, and everything else kept as the (cleaned) raw string.
Floats, lists and nested JSON documents are outside the modelled fragment and
are treated as raw strings. `node` values never come from decoding: they model
the `__source__` entry that the clone branch of `_parseNk` stores in the
in-progress knob dict (a reference to the source `Node`). -/
inductive KnobValue where
  | int (n : Int)
  | str (s : String)
  | bool (b : Bool)
  | node (i : Nat)
deriving DecidableEq, Repr

/-- Knob dictionaries: association lists with unique keys, insertion-ordered
like Python dicts. -/
def Knobs := List (String × KnobValue)
deriving DecidableEq, Repr

instance : Membership (String × KnobValue) Knobs := inferInstanceAs (Membership _ (List _))

/-- `d[k] = v`: replace the value of an existing key in place, else append. -/
def setKnob (ks : Knobs) (k : String) (v : KnobValue) : Knobs :=
  match ks with
  | [] => [(k, v)]
  | (k0, v0) :: rest => if k0 = k then (k0, v) :: rest else (k0, v0) :: setKnob rest k v

/-- `d.get(k)`. -/
def getKnob (ks : Knobs) (k : String) : Option KnobValue :=
  match ks with
  | [] => none
  | (k0, v0) :: rest => if k0 = k then some v0 else getKnob rest k

/-- `d.get(k, dflt)`. -/
def getKnobD (ks : Knobs) (k : String) (dflt : KnobValue) : KnobValue :=
  (getKnob ks k).getD dflt

/-- `d.pop(k, None)` (the dictionary after removal). -/
def removeKnob (ks : Knobs) (k : String) : Knobs :=
  match ks with
  | [] => []
  | (k0, v0) :: rest => if k0 = k then rest else (k0, v0) :: removeKnob rest k

/-- `d.update(other)`: set every entry of `other` in order. -/
def updateKnobs (ks other : Knobs) : Knobs := other.foldl (fun acc kv => setKnob acc kv.1 kv.2) ks

/-- JSON integer literal (as accepted by `json.loads` after stripping the
JSON whitespace characters): optional minus sign, digits without a leading
zero, nothing else. -/
def parseIntLit (cs : List Char) : Option Int :=
  let isJsonWs : Char → Bool := fun c => c = ' ' || c = '\t' || c = '\n' || c = '\r'
  let t := (cs.dropWhile isJsonWs).reverse.dropWhile isJsonWs |>.reverse
  let (neg, ds) := match t with
    | '-' :: rest => (true, rest)
    | _ => (false, t)
  if ds.isEmpty then none
  else if ¬ ds.all Char.isDigit then none
  else if ds.length > 1 && ds.head? = some '0' then none
  else
    let n : Int := ds.foldl (fun acc c => acc * 10 + (c.toNat - '0'.toNat : Int)) 0
    some (if neg then -n else n)

/-- `decodeKnob` (parser.py): replace literal `\n` escapes with real newlines,
strip remaining backslashes, then attempt a JSON parse; mappings and failures
fall back to the cleaned string. Modelled over the integer/boolean/string
fragment (see `KnobValue`). -/
def decodeKnob (value : String) : KnobValue :=
  let cleaned := replaceSubL '\\' [] []
    (replaceSubL '\\' ['n'] ['\n'] value.toList)
  match parseIntLit cleaned with
  | some n => .int n
  | none =>
    if cleaned = "true".toList then .bool true
    else if cleaned = "false".toList then .bool false
    else .str (String.mk cleaned)

/-- Python `eval` of a sum of integer literals with optional spaces, e.g.
`5+1` as Nuke writes for nodes with mask inputs. Other expressions (which
would raise in `eval`) give `none`. -/
def evalIntExpr (cs : List Char) : Option Int :=
  let parts := (String.mk cs).splitOn "+"
  let lits := parts.map (fun p => parseIntLit p.toList)
  if lits.all Option.isSome then
    some ((lits.map (fun o => o.getD 0)).foldl (· + ·) 0)
  else none

/-- `eval(str(v))` as applied to the `inputs` knob in `Node.__init__` and at
node close in `_parseNk`. `none` models the exception raised by `eval` on a
non-numeric string. `str(True)` evaluates to `True`, which multiplies a list
like the integer 1. -/
def evalInputs : KnobValue → Option Int
  | .int n => some n
  | .bool b => some (if b then 1 else 0)
  | .str s => evalIntExpr s.toList
  | .node _ => none

/-- One scene node (`class Node` in parser.py). Object identity becomes an
index (`Nat`) into a `Heap`; the `_inputs` and `_outputs` lists hold optional
indices because `setInput` stores `None` entries in both. -/
structure NodeData where
  class_ : String
  knobs : Knobs
  inputs : List (Option Nat)
  outputs : List (Option Nat)
  children : List Nat
  parent : Option Nat
  is_gizmo : Bool
  clone_suffix : String
  source_node : Option Nat
  clones : List Nat
deriving DecidableEq, Repr

/-- The all-defaults node used as the out-of-range fallback of `Heap.get`
(never observable through the parser, which only dereferences live indices). -/
def NodeData.dflt : NodeData :=
  { class_ := "", knobs := [], inputs := [], outputs := [], children := [],
    parent := none, is_gizmo := false, clone_suffix := "", source_node := none, clones := [] }

instance : Inhabited NodeData := ⟨NodeData.dflt⟩

/-- The arena of allocated nodes; a Python object reference is an index. -/
def Heap := List NodeData
deriving DecidableEq, Repr

instance : Inhabited Heap := ⟨([] : List NodeData)⟩

/-- Dereference an index. -/
def Heap.get (h : Heap) (i : Nat) : NodeData := List.getD h i NodeData.dflt

/-- Length of the arena. -/
def Heap.len (h : Heap) : Nat := List.length h

/-- Mutate the node at index `i` in place (no-op out of range, matching that
such indices never occur). -/
def Heap.mod (h : Heap) (i : Nat) (f : NodeData → NodeData) : Heap :=
  List.set h i (f (Heap.get h i))

/-- `ROOT_NODE_CLASSES` (parser.py). -/
def ROOT_NODE_CLASSES : List String := ["Root", "LiveGroupInfo"]

/-- `_GROUP_NODE_CLASSES` (parser.py). -/
def GROUP_NODE_CLASSES : List String := ["Group", "Gizmo"]

/-- Python truthiness of an optional knob value, as used on
`nk_node.knob("modified")` and `live_group.knob("file")`. -/
def pyTruthy : Option KnobValue → Bool
  | none => false
  | some (.int n) => n ≠ 0
  | some (.str s) => s ≠ ""
  | some (.bool b) => b
  | some (.node _) => true

/-- Python exceptions that can escape `_parseNk` in the modelled environment. -/
inductive PErr where
  | stopIteration
  | keyError
  | indexError
  | attributeError
  | evalError
  | ioError
deriving DecidableEq, Repr

/-- A gizmo registry entry: the prototype graph (its own arena) together with
the index of the registered node (`gizmos[name]` in `_parseGizmos`). -/
structure Gizmo where
  heap : Heap
  id : Nat
deriving DecidableEq, Repr

/-- Association-list lookup (Python `dict.get`, keys unique). -/
def getAssoc (m : List (String × α)) (k : String) : Option α :=
  match m with
  | [] => none
  | (k0, v0) :: rest => if k0 = k then some v0 else getAssoc rest k

/-- Association-list store (Python `d[k] = v`). -/
def setAssoc (m : List (String × α)) (k : String) (v : α) : List (String × α) :=
  match m with
  | [] => [(k, v)]
  | (k0, v0) :: rest => if k0 = k then (k0, v) :: rest else (k0, v0) :: setAssoc rest k v

/-- Parser state of `_parseNk`: the value stack (`main_stack`, top first; `None`
entries model `push 0`), the branch table (`node_map`, whose stored values can
themselves be `None` when the value stack's top was `None`), the accumulating
knob dict and open class, the scope stack (`parents_stack`, top first) and the
clone counter (`clone_map`). -/
structure PState where
  heap : Heap
  mainStack : List (Option Nat)
  nodeMap : List (String × Option Nat)
  knobs : Knobs
  class_ : String
  parentsStack : List Nat
  cloneMap : List (String × Nat)
deriving DecidableEq, Repr

/-- `Stack` (stack.py) defines neither `__bool__` nor `__len__`, so a Python
truth test on a `Stack` object (`if parents_stack`) is true regardless of the
stack's contents. -/
def stackTruthy (_ : List Nat) : Bool := true

/-- The multi-line loop for a quoted value: while the quote count is odd,
`line = next(lines)` extends the value. Returns the accumulated characters and
how many lines were consumed; `none` models the `StopIteration` that
`next(lines)` raises when the stream is exhausted. -/
def consumeQuote (count : Int) (acc : List Char) : List String → Option (List Char × Nat)
  | [] => if count % 2 = 0 then some (acc, 0) else none
  | l :: ls =>
    if count % 2 = 0 then some (acc, 0)
    else
      match consumeQuote (count + quoteCount l.toList) (acc ++ l.toList) ls with
      | some (s, k) => some (s, k + 1)
      | none => none

/-- The multi-line loop for a brace-delimited value: while the brace balance is
nonzero, `line = next(lines)` extends the value. Same conventions as
`consumeQuote`. -/
def consumeBrace (count : Int) (acc : List Char) : List String → Option (List Char × Nat)
  | [] => if count = 0 then some (acc, 0) else none
  | l :: ls =>
    if count = 0 then some (acc, 0)
    else
      match consumeBrace (count + braceCount l.toList) (acc ++ l.toList) ls with
      | some (s, k) => some (s, k + 1)
      | none => none

/-- `Node.__init__`: install the `inputs` default, apply the given knobs, size
`_inputs` by `eval(str(knobs.get("inputs")))` (`[None] * n` is empty for
negative `n`), read and pop `__clone__` and `__source__`, and register the new
node in its source's `_clones`. `none` models the exception `eval` raises on a
value that is not an integer expression. Returns the extended heap and the
index of the new node. -/
def buildNode (h : Heap) (class_ : String) (knobs : Knobs) : Option (Heap × Nat) :=
  let ks := updateKnobs [("inputs", KnobValue.int 1)] knobs
  match evalInputs (getKnobD ks "inputs" (.int 1)) with
  | none => none
  | some n =>
    let suffix := match getKnob ks "__clone__" with
      | some (.str s) => s
      | _ => ""
    let source := match getKnob ks "__source__" with
      | some (.node i) => some i
      | _ => none
    let ks2 := removeKnob (removeKnob ks "__clone__") "__source__"
    let nd : NodeData :=
      { class_ := class_, knobs := ks2, inputs := List.replicate n.toNat none,
        outputs := [], children := [], parent := none, is_gizmo := false,
        clone_suffix := suffix, source_node := source, clones := [] }
    let nid := Heap.len h
    let h1 : Heap := List.append h [nd]
    let h2 := match source with
      | some s => Heap.mod h1 s (fun d => { d with clones := d.clones ++ [nid] })
      | none => h1
    some (h2, nid)

/-- Replace the first occurrence of `self` in an outputs list by `None`
(`old_input._outputs[old_input._outputs.index(self)] = None`). -/
def nullFirst (outs : List (Option Nat)) (i : Nat) : List (Option Nat) :=
  match outs with
  | [] => []
  | x :: xs => if x = some i then none :: xs else x :: nullFirst xs i

/-- `Node.setInput`: read the old occupant of the slot (IndexError if the slot
index is out of range), blank `self` out of the old occupant's outputs, store
the new node in the slot, and append `self` to the new node's outputs. -/
def setInputE (h : Heap) (i : Nat) (slot : Nat) (m : Option Nat) : Except PErr Heap :=
  let nd := Heap.get h i
  if slot < nd.inputs.length then
    let old := nd.inputs.getD slot none
    let h1 := match old with
      | some o =>
        if ((Heap.get h o).outputs).contains (some i) then
          Heap.mod h o (fun d => { d with outputs := nullFirst d.outputs i })
        else h
      | none => h
    let h2 := Heap.mod h1 i (fun d => { d with inputs := d.inputs.set slot m })
    match m with
    | some t => .ok (Heap.mod h2 t (fun d => { d with outputs := d.outputs ++ [some i] }))
    | none => .ok h2
  else .error .indexError

/-- `main_stack.pop()` as used on the value stack: `None` when empty, else the
top entry (which may itself be a stored `None`). -/
def popMain : List (Option Nat) → Option Nat × List (Option Nat)
  | [] => (none, [])
  | x :: xs => (x, xs)

/-- The input-wiring loop at node close:
`for index in range(n): node = main_stack.pop(); nk_node.setInput(index, node)`. -/
def connectGo (nid : Nat) (idx : Nat) : Nat → Heap → List (Option Nat) →
    Except PErr (Heap × List (Option Nat))
  | 0, h, main => .ok (h, main)
  | rem + 1, h, main =>
    let (node, main') := popMain main
    match setInputE h nid idx node with
    | .error e => .error e
    | .ok h' => connectGo nid (idx + 1) rem h' main'

/-- Shift every node index stored in a `KnobValue` (vacuous for decoded values;
constructed nodes never retain `__source__`). -/
def shiftVal (k : Nat) : KnobValue → KnobValue
  | .node i => .node (i + k)
  | v => v

/-- Shift every node index stored in a `NodeData` by `k`: this is what a
`copy.deepcopy` of part of an object graph amounts to once objects are arena
indices — fresh copies of all reachable objects with identical interconnections. -/
def shiftNode (k : Nat) (nd : NodeData) : NodeData :=
  { class_ := nd.class_,
    knobs := nd.knobs.map (fun kv => (kv.1, shiftVal k kv.2)),
    inputs := nd.inputs.map (Option.map (· + k)),
    outputs := nd.outputs.map (Option.map (· + k)),
    children := nd.children.map (· + k),
    parent := nd.parent.map (· + k),
    is_gizmo := nd.is_gizmo,
    clone_suffix := nd.clone_suffix,
    source_node := nd.source_node.map (· + k),
    clones := nd.clones.map (· + k) }

/-- `nk_node._children.extend(copy.deepcopy(gizmos[...].children()))` followed
by `nk_node._is_gizmo = True`: the deep copy materialises a fresh copy of the
prototype arena (the copied children's parent pointers lead into the copied
block, not to `nk_node`), and the copied top-level children are appended to the
new node's children. -/
def instantiateGizmo (h : Heap) (nid : Nat) (g : Gizmo) : Heap :=
  let k := Heap.len h
  let block : List NodeData := List.map (shiftNode k) g.heap
  let copied := (Heap.get g.heap g.id).children.map (· + k)
  let h1 : Heap := List.append h block
  Heap.mod h1 nid (fun d => { d with children := d.children ++ copied, is_gizmo := true })

/-- The `end_group` loop on the value stack: pop once, keep popping while the
popped entry differs from the scope top and the stack is nonempty, then push
the scope top back. -/
def endGroupLoop (target : Nat) : List (Option Nat) → List (Option Nat)
  | [] => [some target]
  | n :: rest => if n = some target then some target :: rest else endGroupLoop target rest

/-- Node-close handling (`elif _NODE_CLOSE_RE.search(line) and class_`), and
the fall-through that ignores unrecognised lines. -/
def stepClose (gizmos : List (String × Gizmo)) (l : List Char) (st : PState) :
    Except PErr (PState × Nat) :=
  if nodeCloseMatch l ∧ st.class_ ≠ "" then
    match buildNode st.heap st.class_ st.knobs with
    | none => .error .evalError
    | some (h1, nid) =>
      match evalInputs (getKnobD (Heap.get h1 nid).knobs "inputs" (.int 1)) with
      | none => .error .evalError
      | some n =>
        match connectGo nid 0 n.toNat h1 st.mainStack with
        | .error e => .error e
        | .ok (h2, main2) =>
          let h3 := match getAssoc gizmos (Heap.get h2 nid).class_ with
            | some g => instantiateGizmo h2 nid g
            | none => h2
          if (Heap.get h3 nid).class_ = "LiveGroup" ∧
              pyTruthy (getKnob (Heap.get h3 nid).knobs "file") then
            -- `_parseLiveGroup` would `open` the referenced file; in the
            -- modelled empty file system this raises an I/O error.
            .error .ioError
          else
            let main3 := some nid :: main2
            if (Heap.get h3 nid).class_ ∈ ROOT_NODE_CLASSES then
              .ok ({ st with
                      heap := h3, mainStack := main3, knobs := [], class_ := "",
                      parentsStack := nid :: st.parentsStack }, 0)
            else
              match st.parentsStack with
              | [] => .error .indexError
              | p :: _ =>
                let h4 := Heap.mod h3 p (fun d => { d with children := d.children ++ [nid] })
                let h5 := Heap.mod h4 nid (fun d => { d with parent := some p })
                let pushScope := (Heap.get h5 nid).class_ ∈ GROUP_NODE_CLASSES ∨
                  ((Heap.get h5 nid).class_ = "LiveGroup" ∧
                    pyTruthy (getKnob (Heap.get h5 nid).knobs "modified"))
                .ok ({ st with
                        heap := h5, mainStack := main3, knobs := [], class_ := "",
                        parentsStack := if pushScope then nid :: st.parentsStack
                          else st.parentsStack }, 0)
  else .ok (st, 0)

/-- Knob-assignment handling (`elif _NODE_KNOB_RE.search(line)`), falling
through to `stepClose`. In the modelled environment NK_PARSER_EXPERIMENTAL is
unset, so the `addUserKnob` special case falls through to the ordinary store. -/
def stepKnob (gizmos : List (String × Gizmo)) (l : List Char) (rest : List String)
    (st : PState) : Except PErr (PState × Nat) :=
  match nodeKnob? l with
  | some (keyL, valL) =>
    let key := String.mk keyL
    if ¬ (valL.head? = some '{' ∨ valL.head? = some '"') then
      .ok ({ st with knobs := setKnob st.knobs key (decodeKnob (String.mk valL)) }, 0)
    else if valL.head? = some '"' then
      match consumeQuote (quoteCount valL) valL rest with
      | none => .error .stopIteration
      | some (s, k) =>
        let s2 := if s.length > 1 then (s.drop 1).dropLast else s
        .ok ({ st with knobs := setKnob st.knobs key (decodeKnob (String.mk s2)) }, k)
    else
      match consumeBrace (braceCount valL) valL rest with
      | none => .error .stopIteration
      | some (s, k) =>
        .ok ({ st with knobs := setKnob st.knobs key (decodeKnob (String.mk s)) }, k)
  | none => stepClose gizmos l st

/-- Node-open handling (`elif _NODE_OPEN_RE.search(line) and not class_`),
falling through to `stepKnob`. -/
def stepOpen (gizmos : List (String × Gizmo)) (stem : String) (l : List Char)
    (rest : List String) (st : PState) : Except PErr (PState × Nat) :=
  match nodeOpenType? l with
  | some tyL =>
    if st.class_ = "" then
      let class_ := String.mk tyL
      let knobs1 := match getAssoc gizmos class_ with
        | some g => updateKnobs st.knobs (Heap.get g.heap g.id).knobs
        | none => st.knobs
      let knobs2 := if class_ = "Gizmo" then setKnob knobs1 "name" (.str stem) else knobs1
      .ok ({ st with class_ := class_, knobs := knobs2 }, 0)
    else stepKnob gizmos l rest st
  | none => stepKnob gizmos l rest st

/-- Clone handling (`elif _CLONE_RE.search(line) and not class_`), falling
through to `stepOpen`. An absent branch key raises KeyError
(`node_map[key]`); a key bound to `None` raises AttributeError
(`None.Class()`). -/
def stepClone (gizmos : List (String × Gizmo)) (stem : String) (l : List Char)
    (rest : List String) (st : PState) : Except PErr (PState × Nat) :=
  match cloneKey? l with
  | some keyL =>
    if st.class_ = "" then
      let key := String.mk keyL
      match getAssoc st.nodeMap key with
      | none => .error .keyError
      | some none => .error .attributeError
      | some (some src) =>
        let srcNd := Heap.get st.heap src
        let knobs0 := removeKnob srcNd.knobs "inputs"
        let cnt := (getAssoc st.cloneMap key).getD 0 + 1
        let knobs1 := setKnob knobs0 "__clone__" (.str ("_" ++ toString cnt))
        let knobs2 := setKnob knobs1 "__source__" (.node src)
        .ok ({ st with
                class_ := srcNd.class_, knobs := knobs2,
                cloneMap := setAssoc st.cloneMap key cnt }, 0)
    else stepOpen gizmos stem l rest st
  | none => stepOpen gizmos stem l rest st

/-- Process one line of `_parseNk`'s dispatch chain: `push 0`, branch save
(with the `key in "cut_paste_input"` containment test of the source), branch
restore, `end_group`, then the clone/open/knob/close chain. Returns the new
state and how many extra lines the knob branch consumed from `rest`. -/
def stepLine (gizmos : List (String × Gizmo)) (stem : String) (line : String)
    (rest : List String) (st : PState) : Except PErr (PState × Nat) :=
  let l := line.toList
  if containsSubL "push 0".toList l then
    .ok ({ st with mainStack := none :: st.mainStack }, 0)
  else
    match branchKey? l with
    | some keyL =>
      if containsSubL keyL "cut_paste_input".toList then
        match buildNode st.heap "Root" [] with
        | none => .error .evalError
        | some (h', nid) => .ok ({ st with heap := h', parentsStack := nid :: st.parentsStack }, 0)
      else
        match st.mainStack with
        | [] => .error .indexError
        | top :: _ => .ok ({ st with nodeMap := setAssoc st.nodeMap (String.mk keyL) top }, 0)
    | none =>
      match pushKey? l with
      | some keyL =>
        .ok ({ st with mainStack := (getAssoc st.nodeMap (String.mk keyL)).join :: st.mainStack }, 0)
      | none =>
        if containsSubL "end_group".toList l then
          match st.parentsStack with
          | [] => .error .indexError
          | target :: ptail =>
            .ok ({ st with
                    mainStack := endGroupLoop target st.mainStack,
                    parentsStack := ptail }, 0)
        else stepClone gizmos stem l rest st

/-- Fueled form of the parsing loop (fuel only serves structural recursion:
every step consumes the current line plus `k ≥ 0` extra lines, so fuel equal
to the number of lines, as supplied by `parseLines`, is never exhausted). -/
def parseLinesFuel (gizmos : List (String × Gizmo)) (stem : String) :
    Nat → List String → PState → Except PErr PState
  | 0, _, st => .ok st
  | _ + 1, [], st => .ok st
  | fuel + 1, line :: rest, st =>
    match stepLine gizmos stem line rest st with
    | .error e => .error e
    | .ok (st', k) => parseLinesFuel gizmos stem fuel (rest.drop k) st'

/-- The parsing loop of `_parseNk` over the line stream. -/
def parseLines (gizmos : List (String × Gizmo)) (stem : String)
    (lines : List String) (st : PState) : Except PErr PState :=
  parseLinesFuel gizmos stem lines.length lines st

/-- The empty initial parser state. -/
def initState : PState :=
  { heap := [], mainStack := [], nodeMap := [], knobs := [], class_ := "",
    parentsStack := [], cloneMap := [] }

/-- `return parents_stack.pop() if parents_stack else Node("Root", {})`:
because `Stack` is always truthy (`stackTruthy`), the else branch is dead and
the result is `pop()` of the scope stack — the top entry, or `None` when the
stack is empty. -/
def finishParse (h : Heap) (parents : List Nat) : Heap × Option Nat :=
  if stackTruthy parents then (h, parents.head?)
  else
    match buildNode h "Root" [] with
    | some (h', i) => (h', some i)
    | none => (h, none)

/-- `_parseNk`: `stem` is the base name of the file without extension (used
for `Gizmo` blocks), `isGizmoFile` is `file_path.endswith(".gizmo")`. The
result pairs the final arena with the returned node reference (`None` when the
scope stack ended empty). -/
def parseNk (gizmos : List (String × Gizmo)) (stem : String) (isGizmoFile : Bool)
    (lines : List String) : Except PErr (Heap × Option Nat) :=
  let st1 :=
    if isGizmoFile then
      match buildNode initState.heap "Root" [] with
      | some (h, nid) => { initState with heap := h, parentsStack := [nid], mainStack := [some nid] }
      | none => initState
    else initState
  match parseLines gizmos stem lines st1 with
  | .error e => .error e
  | .ok st => .ok (finishParse st.heap st.parentsStack)

deriving instance DecidableEq for Except

/-- The error of a parse result, if any. -/
def resultErr : Except PErr (Heap × Option Nat) → Option PErr
  | .error e => some e
  | .ok _ => none

/-- The returned node reference of a successful parse. -/
def resultRef : Except PErr (Heap × Option Nat) → Option (Option Nat)
  | .error _ => none
  | .ok (_, r) => some r

/-- Node `i` of the arena of a successful parse. -/
def resultNode (r : Except PErr (Heap × Option Nat)) (i : Nat) : Option NodeData :=
  match r with
  | .error _ => none
  | .ok (h, _) => some (Heap.get h i)

/-- Knob `k` of node `i` of a successful parse. -/
def resultKnob (r : Except PErr (Heap × Option Nat)) (i : Nat) (k : String) : Option KnobValue :=
  match r with
  | .error _ => none
  | .ok (h, _) => getKnob (Heap.get h i).knobs k

/-- Write one knob of one node (`node._knobs[k] = v`). -/
def setKnobAt (h : Heap) (i : Nat) (k : String) (v : KnobValue) : Heap :=
  Heap.mod h i (fun d => { d with knobs := setKnob d.knobs k v })

/-- `for node in self._clones: node._knobs["disable"] = value`. -/
def writeDisable (v : Bool) (h : Heap) (cs : List Nat) : Heap :=
  cs.foldl (fun acc c => setKnobAt acc c "disable" (.bool v)) h

/-- `Node.setDisable` body: write own `disable` knob, recurse into the source
(full `setDisable`), then write the `disable` knob of each direct clone. The
fuel bounds the recursion up the source chain; in any parsed graph the source
of a node was allocated strictly earlier, so the chain is shorter than the
arena and `Heap.len h + 1` steps always complete it (see `setDisable`). -/
def setDisableGo (v : Bool) : Nat → Heap → Nat → Heap
  | 0, h, _ => h
  | fuel + 1, h, i =>
    let h1 := setKnobAt h i "disable" (.bool v)
    let h2 := match (Heap.get h1 i).source_node with
      | some s => setDisableGo v fuel h1 s
      | none => h1
    writeDisable v h2 (Heap.get h2 i).clones

/-- `Node.setDisable(value)`. -/
def setDisable (h : Heap) (i : Nat) (v : Bool) : Heap :=
  setDisableGo v (Heap.len h + 1) h i

/-- `Node.disable()`: `self._knobs.get("disable", False)`. -/
def disableKnob (h : Heap) (i : Nat) : KnobValue :=
  getKnobD (Heap.get h i).knobs "disable" (.bool false)

/-- `Node.inputs()`: `tuple(filter(None, self._inputs))` — the connected
entries in slot order, empty slots omitted (node references are always truthy,
`None` is falsy). -/
def nodeInputs (nd : NodeData) : List Nat := nd.inputs.filterMap (fun x => x)

/-- The child tree of a node: the class tag and children sequence, which is
the structure that `Node._allNodes` traverses (children of a parsed node form
a finite tree: each node is appended to one parent). -/
inductive NTree where
  | node (class_ : String) (children : List NTree)

/-- Class tag of a tree node. -/
def NTree.cls : NTree → String
  | .node c _ => c

/-- Children of a tree node. -/
def NTree.children : NTree → List NTree
  | .node _ cs => cs

mutual

/-- The inner generator `travers` of `Node._allNodes`: yield the node, then
recursively traverse each child. -/
def travers : NTree → List NTree
  | .node c cs => .node c cs :: traversList cs

/-- `for _child in node.children(): yield from travers(_child)`. -/
def traversList : List NTree → List NTree
  | [] => []
  | t :: ts => travers t ++ traversList ts

end

/-- `Node.allNodes(filters)`: flatten `_allNodes` (which starts from the
children, not the node itself) and keep a node when no filter is given or its
class is among the filters. A single string argument is wrapped into a
one-element tuple by the source; filters are modelled as the resulting list. -/
def allNodes (t : NTree) (filters : List String) : List NTree :=
  (traversList t.children).filter (fun nd => filters.isEmpty || filters.contains nd.cls)

/-- `d` is a strict descendant of `t`: a child, or a descendant of a child. -/
inductive Desc : NTree → NTree → Prop
  | child {c t} : c ∈ t.children → Desc c t
  | step {d c t} : Desc d c → c ∈ t.children → Desc d t

/-- Arity bookkeeping of one node: the slot list has exactly the length that
`eval(str(knobs.get("inputs")))` prescribed at construction (`[None] * n` is
empty for negative `n`, hence the clamp to `Int.toNat`). -/
def arityOk (nd : NodeData) : Prop :=
  ∃ n : Int, evalInputs (getKnobD nd.knobs "inputs" (.int 1)) = some n ∧
    nd.inputs.length = n.toNat

/-- Child references stay inside the arena. -/
def childrenBounded (len : Nat) (nd : NodeData) : Prop := ∀ c ∈ nd.children, c < len

/-- Structural invariant of an arena: every node's arity bookkeeping holds,
child references are live, and every node of non-root class has a live parent
in whose children it appears exactly once. -/
def InvHeap (h : Heap) : Prop :=
  (∀ i, i < Heap.len h → arityOk (Heap.get h i)) ∧
  (∀ i, i < Heap.len h → childrenBounded (Heap.len h) (Heap.get h i)) ∧
  (∀ i, i < Heap.len h → (Heap.get h i).class_ ∉ ROOT_NODE_CLASSES →
    ∃ p, p < Heap.len h ∧ (Heap.get h i).parent = some p ∧
      List.count i (Heap.get h p).children = 1)

/-- `InvHeap` with the parent/child clause suspended at one node: the state of
the arena between the construction of a node at close and its `_addChild`. -/
def InvHeapX (h : Heap) (x : Nat) : Prop :=
  (∀ i, i < Heap.len h → arityOk (Heap.get h i)) ∧
  (∀ i, i < Heap.len h → childrenBounded (Heap.len h) (Heap.get h i)) ∧
  (∀ i, i < Heap.len h → i ≠ x → (Heap.get h i).class_ ∉ ROOT_NODE_CLASSES →
    ∃ p, p < Heap.len h ∧ (Heap.get h i).parent = some p ∧
      List.count i (Heap.get h p).children = 1)

/-- Parser-state invariant: arena invariant plus live scope-stack entries. -/
def InvState (st : PState) : Prop :=
  InvHeap st.heap ∧ ∀ p ∈ st.parentsStack, p < Heap.len st.heap

/-- Well-formedness of a gizmo registry entry: its prototype arena is the
output of a parse (so it satisfies the arena invariant) and the registered
node is live in it. -/
def GizmoWf (g : Gizmo) : Prop := InvHeap g.heap ∧ g.id < Heap.len g.heap

/-- The fields of a node that the structural invariant reads: everything
except `_outputs`, `_clones` and the other clone bookkeeping, with `_inputs`
only up to its length. -/
def invFields (a b : NodeData) : Prop :=
  a.class_ = b.class_ ∧ a.knobs = b.knobs ∧ a.inputs.length = b.inputs.length ∧
  a.children = b.children ∧ a.parent = b.parent

/-- Two arenas of equal length whose nodes agree on all invariant-relevant
fields. -/
def SameInv (h h' : Heap) : Prop :=
  Heap.len h' = Heap.len h ∧ ∀ j, invFields (Heap.get h' j) (Heap.get h j)

/-- What `buildNode` guarantees (see `buildNode_spec`): the fresh node sits at
the old length, the arena grows by one, all other nodes keep their invariant
fields, and the fresh node is childless, parentless, of the requested class,
with its arity bookkeeping established. -/
def BuildSpec (h h' : Heap) (nid : Nat) (c : String) : Prop :=
  nid = Heap.len h ∧ Heap.len h' = Heap.len h + 1 ∧
  (∀ j, j ≠ nid → invFields (Heap.get h' j) (Heap.get h j)) ∧
  (Heap.get h' nid).children = [] ∧ (Heap.get h' nid).parent = none ∧
  (Heap.get h' nid).class_ = c ∧ arityOk (Heap.get h' nid)

/-! ## Theorems -/

/-- C1. The claim says `_parseNk` returns the bottom of the scope stack when
input is exhausted, and an empty `Root` node when the scope stack is empty.
The code (`return parents_stack.pop() if parents_stack else Node("Root", {})`)
does neither: `Stack` defines no `__bool__`/`__len__`, so the guard is always
true (first conjunct: the else branch is dead for every heap and stack) and an
empty scope stack yields `None` — witnessed by the empty input, whose parse
returns no node — while a scene whose `Group` scope is never closed by
`end_group` returns the top of the scope stack (the `Group`, node 1), not the
bottom (the `Root`, node 0). -/
theorem c1_exhausted_input_returns_pop_not_bottom :
    (∀ (h : Heap) (parents : List Nat), finishParse h parents = (h, parents.head?)) ∧
    parseNk [] "scene" false [] = .ok ([], none) ∧
    resultRef (parseNk [] "scene" false ["Root \x7b\n", "\x7d\n", "Group \x7b\n", "\x7d\n"]) =
      some (some 1) ∧
    (resultNode (parseNk [] "scene" false ["Root \x7b\n", "\x7d\n", "Group \x7b\n", "\x7d\n"]) 1).map
      NodeData.class_ = some "Group" ∧
    (resultNode (parseNk [] "scene" false ["Root \x7b\n", "\x7d\n", "Group \x7b\n", "\x7d\n"]) 0).map
      NodeData.class_ = some "Root" :=
  ⟨fun _ _ => rfl, by decide, by decide, by decide, by decide⟩

/-- C2, counterexample. The claim says a parse in which an opening quote is
never balanced before end of file does not fail and surfaces no error. In the
code the multi-line loop calls `next(lines)`, and on an exhausted stream the
resulting `StopIteration` propagates out of `_parseNk`: the concrete input
below (a `Text` block whose `message` value opens a quote that is never
closed) aborts with that error, and the same happens for an unbalanced brace. -/
theorem c2_truncation_raises_counterexample :
    resultErr (parseNk [] "scene" false
      ["Root \x7b\n", "\x7d\n", "Text \x7b\n", " message \"abc\n"]) = some .stopIteration ∧
    resultErr (parseNk [] "scene" false
      ["Root \x7b\n", "\x7d\n", "Text \x7b\n", " message \x7babc\n"]) = some .stopIteration :=
  ⟨by decide, by decide⟩

/-- C3. The claim says a fresh `Root` scope is opened iff the saved key is
exactly `cut_paste_input`. The code tests `key in "cut_paste_input"` — Python
substring containment. The key `input` is a proper substring: processing
`set input [stack 0]` allocates a fresh `Root` scope (which the parse then
returns) and leaves the branch table untouched, while a key that is not a
substring (`Blur1`) is recorded in the branch table as the claim describes. -/
theorem c3_cut_paste_input_substring_test :
    "input" ≠ "cut_paste_input" ∧
    containsSubL "input".toList "cut_paste_input".toList = true ∧
    resultRef (parseNk [] "scene" false ["set input [stack 0]\n"]) = some (some 0) ∧
    (resultNode (parseNk [] "scene" false ["set input [stack 0]\n"]) 0).map NodeData.class_ =
      some "Root" ∧
    stepLine [] "scene" "set input [stack 0]\n" [] initState =
      .ok ({ initState with
              heap := [{ class_ := "Root", knobs := [("inputs", KnobValue.int 1)],
                         inputs := [none], outputs := [], children := [], parent := none,
                         is_gizmo := false, clone_suffix := "", source_node := none,
                         clones := [] }],
              parentsStack := [0] }, 0) ∧
    stepLine [] "scene" "set Blur1 [stack 0]\n" [] { initState with mainStack := [some 7] } =
      .ok ({ initState with mainStack := [some 7], nodeMap := [("Blur1", some 7)] }, 0) :=
  ⟨by decide, by decide, by decide, by decide, by decide, by decide⟩

/-- C4, counterexample. The claim says every node's input-slot count equals
the value of its `inputs` knob. Parsing a `Blur` block with `inputs -1` gives
a node whose `inputs` knob is the integer `-1` (stored by `decodeKnob`) but
whose slot list is empty (`[None] * eval("-1")` is the empty list), and
`0 ≠ -1`. -/
theorem c4_negative_inputs_counterexample :
    resultKnob (parseNk [] "scene" false
      ["Root \x7b\n", "\x7d\n", "Blur \x7b\n", " inputs -1\n", "\x7d\n"]) 1 "inputs" =
      some (.int (-1)) ∧
    (resultNode (parseNk [] "scene" false
      ["Root \x7b\n", "\x7d\n", "Blur \x7b\n", " inputs -1\n", "\x7d\n"]) 1).map
      (fun nd => nd.inputs.length) = some 0 ∧
    (0 : Int) ≠ (-1 : Int) :=
  ⟨by decide, by decide, by decide⟩

/-- C7, counterexample. The claim says clone directives whose key was saved by
a preceding `set KEY [stack N]` never raise. Saving a key while the value
stack's top is the empty entry pushed by `push 0` binds the key to `None`, and
the subsequent `clone $K {` calls `None.Class()`: the parse aborts with an
AttributeError, not a lookup error and not success. -/
theorem c7_saved_none_clone_counterexample :
    resultErr (parseNk [] "scene" false
      ["push 0\n", "set K [stack 0]\n", "clone $K \x7b\n"]) = some .attributeError := by
  decide

/-- C8, counterexample. The claim says parsing the scenario-4 input yields a
`Text` node whose `message` knob is exactly `"line1\nline2"`. Parsing the
literal scenario-4 lines aborts with an IndexError (the `Text` node closes
with no open root scope to parent it), and even inside a `Root` scope the
resulting knob is the string `"{line1line2}\n"` — the knob regex drops the
first line's newline, and the braces and the final line's newline are kept —
which differs from the claimed value. -/
theorem c8_scenario4_message_counterexample :
    resultErr (parseNk [] "scene" false
      ["Text \x7b\n", " message \x7bline1\n", "line2\x7d\n", " name T\n", "\x7d\n"]) =
      some .indexError ∧
    resultKnob (parseNk [] "scene" false
      ["Root \x7b\n", "\x7d\n", "Text \x7b\n", " message \x7bline1\n", "line2\x7d\n",
       " name T\n", "\x7d\n"]) 1 "message" ≠ some (.str "line1\nline2") :=
  ⟨by decide, by decide⟩

/-- C8, amended. Parsing the scenario-4 fragment aborts with an IndexError
unless a root scope is open; parsed inside a `Root` block, the `Text` node's
`message` knob is the string `"{line1line2}\n"`: the newline of the first
value line is dropped (the knob pattern's `.` stops at the newline), the
continuation line is appended verbatim including its trailing newline, and
the delimiting braces are not stripped. -/
theorem c8_scenario4_message_amended :
    resultErr (parseNk [] "scene" false
      ["Text \x7b\n", " message \x7bline1\n", "line2\x7d\n", " name T\n", "\x7d\n"]) =
      some .indexError ∧
    resultKnob (parseNk [] "scene" false
      ["Root \x7b\n", "\x7d\n", "Text \x7b\n", " message \x7bline1\n", "line2\x7d\n",
       " name T\n", "\x7d\n"]) 1 "message" = some (.str "\x7bline1line2\x7d\n") ∧
    (resultNode (parseNk [] "scene" false
      ["Root \x7b\n", "\x7d\n", "Text \x7b\n", " message \x7bline1\n", "line2\x7d\n",
       " name T\n", "\x7d\n"]) 1).map NodeData.class_ = some "Text" ∧
    resultKnob (parseNk [] "scene" false
      ["Root \x7b\n", "\x7d\n", "Text \x7b\n", " message \x7bline1\n", "line2\x7d\n",
       " name T\n", "\x7d\n"]) 1 "name" = some (.str "T") :=
  ⟨by decide, by decide, by decide, by decide⟩

/-- Length accounting for the inputs accessor: connected entries plus empty
slots make up the whole slot list. -/
theorem filterMap_id_length_add_none (l : List (Option Nat)) :
    (l.filterMap (fun x => x)).length + l.countP (fun o => o.isNone) = l.length := by
  induction l with
  | nil => simp
  | cons a l ih =>
    cases a with
    | none =>
      have h1 : List.filterMap (fun x => x) (none :: l) = List.filterMap (fun x => x) l := rfl
      rw [h1, List.countP_cons]
      simp
      omega
    | some b =>
      have h1 : List.filterMap (fun x => x) (some b :: l) = b :: List.filterMap (fun x => x) l := rfl
      rw [h1, List.countP_cons]
      simp
      omega

/-- C9. `Node.inputs()` (`tuple(filter(None, self._inputs))`) returns only the
connected input slots: its length plus the number of empty slots is the full
arity (so it is strictly shorter as soon as any slot is unconnected —
witnessed by the final conjunct), every returned reference occupies some slot,
every connected slot is returned, and empty slots leave no trace in the
result. -/
theorem c9_inputs_accessor_omits_empty_slots :
    (∀ nd : NodeData,
      (nodeInputs nd).length + nd.inputs.countP (fun o => o.isNone) = nd.inputs.length) ∧
    (∀ nd : NodeData, ∀ x : Nat, x ∈ nodeInputs nd → some x ∈ nd.inputs) ∧
    (∀ nd : NodeData, ∀ x : Nat, some x ∈ nd.inputs → x ∈ nodeInputs nd) ∧
    (∃ nd : NodeData, (nodeInputs nd).length < nd.inputs.length) := by
  refine ⟨fun nd => filterMap_id_length_add_none nd.inputs, fun nd x hx => ?_, fun nd x hx => ?_,
    ⟨{ NodeData.dflt with inputs := [none] }, by decide⟩⟩
  · rcases List.mem_filterMap.mp hx with ⟨a, ha, hax⟩
    cases a with
    | none => cases hax
    | some b => cases hax; exact ha
  · exact List.mem_filterMap.mpr ⟨some x, hx, rfl⟩

/-- C9, witness: on a node with slots `[some 3, none]` the accessor keeps the
connected slot `3` and reports length `1` against arity `2`. -/
theorem c9_inputs_accessor_omits_empty_slots_witness :
    3 ∈ nodeInputs { NodeData.dflt with inputs := [some 3, none] } ∧
    (nodeInputs { NodeData.dflt with inputs := [some 3, none] }).length +
      ([some 3, none] : List (Option Nat)).countP (fun o => o.isNone) = 2 :=
  ⟨c9_inputs_accessor_omits_empty_slots.2.2.1 { NodeData.dflt with inputs := [some 3, none] } 3
      (by decide),
   c9_inputs_accessor_omits_empty_slots.1 { NodeData.dflt with inputs := [some 3, none] }⟩

/-- Unfolding equation of the mutual traversal. -/
theorem travers_def (c : String) (cs : List NTree) :
    travers (.node c cs) = .node c cs :: traversList cs := by rw [travers]

@[simp]
theorem children_node (c : String) (cs : List NTree) : (NTree.node c cs).children = cs := rfl

@[simp]
theorem cls_node (c : String) (cs : List NTree) : (NTree.node c cs).cls = c := rfl

/-- The children list is structurally smaller than the node. -/
theorem sizeOf_children_lt (t : NTree) : sizeOf t.children < sizeOf t := by
  cases t with
  | node c cs => simp

/-- Membership in the sequential traversal of a list of trees. -/
theorem mem_traversList {x : NTree} {ts : List NTree} :
    x ∈ traversList ts ↔ ∃ u, u ∈ ts ∧ x ∈ travers u := by
  induction ts with
  | nil =>
    rw [traversList]
    simp
  | cons t ts ih =>
    rw [traversList]
    simp only [List.mem_append, List.mem_cons, ih]
    constructor
    · rintro (hx | ⟨u, hu, hxu⟩)
      · exact ⟨t, Or.inl rfl, hx⟩
      · exact ⟨u, Or.inr hu, hxu⟩
    · rintro ⟨u, hu | hu, hxu⟩
      · subst hu; exact Or.inl hxu
      · exact Or.inr ⟨u, hu, hxu⟩

/-- Inversion of the strict-descendant relation at a node. -/
theorem desc_node_iff (x : NTree) (c : String) (cs : List NTree) :
    Desc x (.node c cs) ↔ ∃ u, u ∈ cs ∧ (x = u ∨ Desc x u) := by
  constructor
  · intro h
    cases h with
    | child hc => exact ⟨x, hc, Or.inl rfl⟩
    | step hd hc => exact ⟨_, hc, Or.inr hd⟩
  · rintro ⟨u, hu, rfl | hd⟩
    · exact Desc.child hu
    · exact Desc.step hd hu

/-- A strict descendant is structurally smaller. -/
theorem desc_sizeOf_lt {x t : NTree} (h : Desc x t) : sizeOf x < sizeOf t := by
  induction h with
  | child hc =>
    exact lt_trans (List.sizeOf_lt_of_mem hc) (sizeOf_children_lt _)
  | step hd hc ih =>
    exact lt_trans ih (lt_trans (List.sizeOf_lt_of_mem hc) (sizeOf_children_lt _))

/-- Membership in `travers t`: the node itself or a strict descendant. -/
theorem mem_travers_aux :
    ∀ (n : Nat) (t : NTree), sizeOf t ≤ n → ∀ x, (x ∈ travers t ↔ x = t ∨ Desc x t) := by
  intro n
  induction n with
  | zero =>
    intro t ht
    cases t with
    | node c cs => simp at ht
  | succ n ih =>
    intro t ht x
    cases t with
    | node c cs =>
      rw [travers_def]
      simp only [List.mem_cons, mem_traversList, desc_node_iff]
      constructor
      · rintro (hx | ⟨u, hu, hxu⟩)
        · exact Or.inl hx
        · have hsz : sizeOf u ≤ n := by
            have h1 := List.sizeOf_lt_of_mem hu
            have h2 := sizeOf_children_lt (NTree.node c cs)
            simp only [children_node] at h2
            omega
          exact Or.inr ⟨u, hu, (ih u hsz x).mp hxu⟩
      · rintro (hx | ⟨u, hu, hxu⟩)
        · exact Or.inl hx
        · have hsz : sizeOf u ≤ n := by
            have h1 := List.sizeOf_lt_of_mem hu
            have h2 := sizeOf_children_lt (NTree.node c cs)
            simp only [children_node] at h2
            omega
          exact Or.inr ⟨u, hu, (ih u hsz x).mpr hxu⟩

/-- Membership in `travers t`, unconditionally. -/
theorem mem_travers {x t : NTree} : x ∈ travers t ↔ x = t ∨ Desc x t :=
  mem_travers_aux (sizeOf t) t le_rfl x

/-- With no filter, `allNodes` is the flat traversal of the children. -/
theorem allNodes_nil (t : NTree) : allNodes t [] = traversList t.children := by
  simp [allNodes]

/-- The flat traversal as a concatenation of per-child blocks. -/
theorem traversList_map (ts : List NTree) :
    traversList ts = (ts.map (fun c => c :: traversList c.children)).flatten := by
  induction ts with
  | nil => rw [traversList]; simp
  | cons t ts ih =>
    rw [traversList]
    cases t with
    | node c cs =>
      rw [travers_def]
      simp only [List.map_cons, List.flatten_cons, children_node]
      rw [ih]

/-- C10. `Node.allNodes()` with no filter enumerates exactly the strict
descendants of `n` in depth-first order: the result is the concatenation, over
the children in order, of each child followed by that child's own
enumeration; membership is equivalent to being a strict descendant; and the
node itself never appears. -/
theorem c10_allNodes_strict_descendants :
    (∀ t : NTree, allNodes t [] = (t.children.map (fun c => c :: allNodes c [])).flatten) ∧
    (∀ t x : NTree, x ∈ allNodes t [] ↔ Desc x t) ∧
    (∀ t : NTree, t ∉ allNodes t []) := by
  have hmem : ∀ t x : NTree, x ∈ allNodes t [] ↔ Desc x t := by
    intro t x
    cases t with
    | node c cs =>
      rw [allNodes_nil, desc_node_iff]
      simp only [children_node, mem_traversList]
      constructor
      · rintro ⟨u, hu, hxu⟩
        exact ⟨u, hu, mem_travers.mp hxu⟩
      · rintro ⟨u, hu, hxu⟩
        exact ⟨u, hu, mem_travers.mpr hxu⟩
  refine ⟨fun t => ?_, hmem, fun t ht => ?_⟩
  · rw [allNodes_nil, traversList_map]
    congr 1
    apply List.map_congr_left
    intro c _
    rw [allNodes_nil c]
  · exact absurd (desc_sizeOf_lt ((hmem t t).mp ht)) (lt_irrefl _)

/-- C10, witness: in the tree `Root[A[B]]` the grandchild `B` is enumerated
(it is a strict descendant), and the root is not enumerated. -/
theorem c10_allNodes_strict_descendants_witness :
    (NTree.node "B" []) ∈
      allNodes (NTree.node "Root" [NTree.node "A" [NTree.node "B" []]]) [] ∧
    (NTree.node "Root" [NTree.node "A" [NTree.node "B" []]]) ∉
      allNodes (NTree.node "Root" [NTree.node "A" [NTree.node "B" []]]) [] := by
  have hBA : Desc (NTree.node "B" []) (NTree.node "A" [NTree.node "B" []]) :=
    Desc.child (by simp)
  have hBR : Desc (NTree.node "B" []) (NTree.node "Root" [NTree.node "A" [NTree.node "B" []]]) :=
    Desc.step hBA (by simp)
  exact ⟨(c10_allNodes_strict_descendants.2.1 _ _).mpr hBR,
    c10_allNodes_strict_descendants.2.2 _⟩

/-- In-place mutation preserves the arena length. -/
theorem len_mod (h : Heap) (i : Nat) (f : NodeData → NodeData) :
    Heap.len (Heap.mod h i f) = Heap.len h := by
  simp [Heap.mod, Heap.len]

/-- Reading after an in-place mutation. -/
theorem get_mod (h : Heap) (i : Nat) (f : NodeData → NodeData) (j : Nat) :
    Heap.get (Heap.mod h i f) j =
      if j = i ∧ i < Heap.len h then f (Heap.get h i) else Heap.get h j := by
  unfold Heap.get Heap.mod Heap.len
  rw [List.getD_eq_getElem?_getD, List.getD_eq_getElem?_getD, List.getElem?_set]
  split
  · rename_i hij
    by_cases hlt : i < List.length h
    · rw [if_pos hlt, if_pos ⟨hij.symm, hlt⟩]
      simp [Heap.get, List.getD_eq_getElem?_getD]
    · rw [if_neg hlt, if_neg (by tauto)]
      simp [List.getElem?_eq_none (by omega : List.length h ≤ j), hij]
  · rename_i hij
    rw [if_neg (by tauto), List.getD_eq_getElem?_getD]

/-- Looking up the key just stored. -/
theorem getKnob_setKnob_self (ks : Knobs) (k : String) (v : KnobValue) :
    getKnob (setKnob ks k v) k = some v := by
  induction ks with
  | nil => simp [setKnob, getKnob]
  | cons kv rest ih =>
    obtain ⟨k0, v0⟩ := kv
    by_cases hk : k0 = k <;> simp [setKnob, getKnob, hk, ih]

/-- Looking up a different key after a store. -/
theorem getKnob_setKnob_ne (ks : Knobs) (k k' : String) (v : KnobValue) (hne : k' ≠ k) :
    getKnob (setKnob ks k v) k' = getKnob ks k' := by
  have hne' : ¬ (k = k') := fun hh => hne hh.symm
  induction ks with
  | nil =>
    show (if k = k' then some v else getKnob [] k') = getKnob ([] : Knobs) k'
    rw [if_neg hne']
  | cons kv rest ih =>
    obtain ⟨k0, v0⟩ := kv
    simp only [setKnob]
    by_cases hk : k0 = k
    · rw [if_pos hk]
      simp only [getKnob]
      rw [if_neg (fun hh => hne' (hk ▸ hh)), if_neg (fun hh => hne' (hk ▸ hh))]
    · rw [if_neg hk]
      simp only [getKnob]
      rw [ih]

/-- Writing a knob preserves the arena length. -/
theorem len_setKnobAt (h : Heap) (i : Nat) (k : String) (v : KnobValue) :
    Heap.len (setKnobAt h i k v) = Heap.len h := len_mod h i _

/-- Writing a knob leaves every node's `_source_node` untouched. -/
theorem setKnobAt_source (h : Heap) (i : Nat) (k : String) (v : KnobValue) (j : Nat) :
    (Heap.get (setKnobAt h i k v) j).source_node = (Heap.get h j).source_node := by
  unfold setKnobAt
  rw [get_mod]
  split
  · rename_i hc
    rw [hc.1]
  · rfl

/-- Writing a knob leaves every node's `_clones` untouched. -/
theorem setKnobAt_clones (h : Heap) (i : Nat) (k : String) (v : KnobValue) (j : Nat) :
    (Heap.get (setKnobAt h i k v) j).clones = (Heap.get h j).clones := by
  unfold setKnobAt
  rw [get_mod]
  split
  · rename_i hc
    rw [hc.1]
  · rfl

/-- A `disable` value already equal to the written boolean survives a
`disable` write anywhere. -/
theorem disable_setKnobAt_preserve (h : Heap) (i j : Nat) (v : Bool)
    (hj : disableKnob h j = .bool v) :
    disableKnob (setKnobAt h i "disable" (.bool v)) j = .bool v := by
  unfold disableKnob setKnobAt at *
  rw [get_mod]
  split
  · simp [getKnobD, getKnob_setKnob_self]
  · exact hj

/-- Writing `disable` on a live node makes its accessor read that value. -/
theorem disable_setKnobAt_self (h : Heap) (i : Nat) (v : Bool) (hi : i < Heap.len h) :
    disableKnob (setKnobAt h i "disable" (.bool v)) i = .bool v := by
  unfold disableKnob setKnobAt
  rw [get_mod, if_pos ⟨rfl, hi⟩]
  simp [getKnobD, getKnob_setKnob_self]

/-- The clone loop preserves the arena length. -/
theorem len_writeDisable (v : Bool) (cs : List Nat) :
    ∀ h : Heap, Heap.len (writeDisable v h cs) = Heap.len h := by
  induction cs with
  | nil => intro h; rfl
  | cons c cs ih =>
    intro h
    show Heap.len (writeDisable v (setKnobAt h c "disable" (.bool v)) cs) = _
    rw [ih, len_setKnobAt]

/-- The clone loop leaves `_source_node` and `_clones` of every node untouched. -/
theorem writeDisable_sourceClones (v : Bool) (cs : List Nat) :
    ∀ (h : Heap) (j : Nat),
      (Heap.get (writeDisable v h cs) j).source_node = (Heap.get h j).source_node ∧
      (Heap.get (writeDisable v h cs) j).clones = (Heap.get h j).clones := by
  induction cs with
  | nil => intro h j; exact ⟨rfl, rfl⟩
  | cons c cs ih =>
    intro h j
    show (Heap.get (writeDisable v (setKnobAt h c "disable" (.bool v)) cs) j).source_node = _ ∧
      (Heap.get (writeDisable v (setKnobAt h c "disable" (.bool v)) cs) j).clones = _
    rw [(ih _ j).1, (ih _ j).2, setKnobAt_source, setKnobAt_clones]
    exact ⟨rfl, rfl⟩

/-- A `disable` value equal to the written boolean survives the clone loop. -/
theorem disable_writeDisable_preserve (v : Bool) (cs : List Nat) :
    ∀ (h : Heap) (j : Nat), disableKnob h j = .bool v →
      disableKnob (writeDisable v h cs) j = .bool v := by
  induction cs with
  | nil => intro h j hj; exact hj
  | cons c cs ih =>
    intro h j hj
    show disableKnob (writeDisable v (setKnobAt h c "disable" (.bool v)) cs) j = _
    exact ih _ j (disable_setKnobAt_preserve h c j v hj)

/-- The clone loop writes the value into every listed live node. -/
theorem disable_writeDisable_writes (v : Bool) (cs : List Nat) :
    ∀ (h : Heap) (c : Nat), c ∈ cs → c < Heap.len h →
      disableKnob (writeDisable v h cs) c = .bool v := by
  induction cs with
  | nil => intro h c hc; cases hc
  | cons c0 cs ih =>
    intro h c hc hlt
    show disableKnob (writeDisable v (setKnobAt h c0 "disable" (.bool v)) cs) c = _
    rcases List.mem_cons.mp hc with hc0 | hcs
    · subst hc0
      exact disable_writeDisable_preserve v cs _ c (disable_setKnobAt_self h c v hlt)
    · exact ih _ c hcs (by rw [len_setKnobAt]; exact hlt)

/-- `setDisable` preserves the arena length. -/
theorem len_setDisableGo (v : Bool) :
    ∀ (fuel : Nat) (h : Heap) (i : Nat), Heap.len (setDisableGo v fuel h i) = Heap.len h := by
  intro fuel
  induction fuel with
  | zero => intro h i; rfl
  | succ fuel ih =>
    intro h i
    rw [setDisableGo]
    cases hsrc : (Heap.get (setKnobAt h i "disable" (.bool v)) i).source_node with
    | none =>
      simp only [hsrc]
      rw [len_writeDisable, len_setKnobAt]
    | some s =>
      simp only [hsrc]
      rw [len_writeDisable, ih, len_setKnobAt]

/-- `setDisable` leaves `_source_node` and `_clones` of every node untouched. -/
theorem setDisableGo_sourceClones (v : Bool) :
    ∀ (fuel : Nat) (h : Heap) (i j : Nat),
      (Heap.get (setDisableGo v fuel h i) j).source_node = (Heap.get h j).source_node ∧
      (Heap.get (setDisableGo v fuel h i) j).clones = (Heap.get h j).clones := by
  intro fuel
  induction fuel with
  | zero => intro h i j; exact ⟨rfl, rfl⟩
  | succ fuel ih =>
    intro h i j
    rw [setDisableGo]
    cases hsrc : (Heap.get (setKnobAt h i "disable" (.bool v)) i).source_node with
    | none =>
      simp only [hsrc]
      rw [(writeDisable_sourceClones v _ _ j).1, (writeDisable_sourceClones v _ _ j).2,
        setKnobAt_source, setKnobAt_clones]
      exact ⟨rfl, rfl⟩
    | some s =>
      simp only [hsrc]
      rw [(writeDisable_sourceClones v _ _ j).1, (writeDisable_sourceClones v _ _ j).2,
        (ih _ s j).1, (ih _ s j).2, setKnobAt_source, setKnobAt_clones]
      exact ⟨rfl, rfl⟩

/-- A `disable` value equal to the written boolean survives `setDisable`. -/
theorem disable_setDisableGo_preserve (v : Bool) :
    ∀ (fuel : Nat) (h : Heap) (i j : Nat), disableKnob h j = .bool v →
      disableKnob (setDisableGo v fuel h i) j = .bool v := by
  intro fuel
  induction fuel with
  | zero => intro h i j hj; exact hj
  | succ fuel ih =>
    intro h i j hj
    rw [setDisableGo]
    cases hsrc : (Heap.get (setKnobAt h i "disable" (.bool v)) i).source_node with
    | none =>
      simp only [hsrc]
      exact disable_writeDisable_preserve v _ _ j (disable_setKnobAt_preserve h i j v hj)
    | some s =>
      simp only [hsrc]
      exact disable_writeDisable_preserve v _ _ j
        (ih _ s j (disable_setKnobAt_preserve h i j v hj))

/-- With any fuel at all, `setDisable` writes the target node itself. -/
theorem disable_setDisableGo_self (v : Bool) (fuel : Nat) (h : Heap) (i : Nat)
    (hfuel : 1 ≤ fuel) (hi : i < Heap.len h) :
    disableKnob (setDisableGo v fuel h i) i = .bool v := by
  cases fuel with
  | zero => omega
  | succ fuel =>
    rw [setDisableGo]
    cases hsrc : (Heap.get (setKnobAt h i "disable" (.bool v)) i).source_node with
    | none =>
      simp only [hsrc]
      exact disable_writeDisable_preserve v _ _ i (disable_setKnobAt_self h i v hi)
    | some s =>
      simp only [hsrc]
      exact disable_writeDisable_preserve v _ _ i
        (disable_setDisableGo_preserve v fuel _ s i (disable_setKnobAt_self h i v hi))

/-- With any fuel at all, `setDisable` writes every direct clone of the target. -/
theorem disable_setDisableGo_clones (v : Bool) (fuel : Nat) (h : Heap) (i c : Nat)
    (hfuel : 1 ≤ fuel) (hc : c ∈ (Heap.get h i).clones) (hlt : c < Heap.len h) :
    disableKnob (setDisableGo v fuel h i) c = .bool v := by
  cases fuel with
  | zero => omega
  | succ fuel =>
    rw [setDisableGo]
    cases hsrc : (Heap.get (setKnobAt h i "disable" (.bool v)) i).source_node with
    | none =>
      simp only [hsrc]
      refine disable_writeDisable_writes v _ _ c ?_ ?_
      · rw [setKnobAt_clones]
        exact hc
      · rw [len_setKnobAt]
        exact hlt
    | some s =>
      simp only [hsrc]
      refine disable_writeDisable_writes v _ _ c ?_ ?_
      · rw [(setDisableGo_sourceClones v fuel _ s i).2, setKnobAt_clones]
        exact hc
      · rw [len_setDisableGo, len_setKnobAt]
        exact hlt

/-- C6. For a clone family — a source node `s` together with its clone
instances `(Heap.get h s).clones`, linked back through `_source_node` as the
parser builds them — calling `setDisable v` on any member makes every member's
`disable()` read the written boolean: the callee writes its own knob, the
recursion into `_source_node` writes the source, and the source's clone loop
writes every clone. -/
theorem c6_setDisable_propagates_through_clone_family (h : Heap) (s m : Nat) (v : Bool)
    (hs : s < Heap.len h)
    (hm : m = s ∨ m ∈ (Heap.get h s).clones)
    (hsrc : ∀ c ∈ (Heap.get h s).clones, (Heap.get h c).source_node = some s)
    (hclen : ∀ c ∈ (Heap.get h s).clones, c < Heap.len h) :
    ∀ x, (x = s ∨ x ∈ (Heap.get h s).clones) →
      disableKnob (setDisable h m v) x = .bool v := by
  intro x hx
  unfold setDisable
  rcases hm with rfl | hmc
  · rcases hx with rfl | hxc
    · exact disable_setDisableGo_self v (Heap.len h + 1) h x (Nat.le_add_left 1 _) hs
    · exact disable_setDisableGo_clones v (Heap.len h + 1) h m x (Nat.le_add_left 1 _) hxc
        (hclen _ hxc)
  · rw [setDisableGo]
    have hms : (Heap.get (setKnobAt h m "disable" (.bool v)) m).source_node = some s := by
      rw [setKnobAt_source]
      exact hsrc m hmc
    simp only [hms]
    have hs1 : s < Heap.len (setKnobAt h m "disable" (.bool v)) := by
      rw [len_setKnobAt]; exact hs
    have hlen1 : 1 ≤ Heap.len h := by omega
    have hgo : ∀ y, (y = s ∨ y ∈ (Heap.get h s).clones) →
        disableKnob (setDisableGo v (Heap.len h) (setKnobAt h m "disable" (.bool v)) s) y =
          .bool v := by
      intro y hy
      rcases hy with rfl | hyc
      · exact disable_setDisableGo_self v (Heap.len h) _ y hlen1 hs1
      · refine disable_setDisableGo_clones v (Heap.len h) _ s y hlen1 ?_ ?_
        · rw [setKnobAt_clones]
          exact hyc
        · rw [len_setKnobAt]
          exact hclen y hyc
    exact disable_writeDisable_preserve v _ _ x (hgo x hx)

/-- C6, witness: the two-node family (source `0`, clone `1`), written through
the clone, reads `true` on both members. -/
theorem c6_setDisable_propagates_through_clone_family_witness :
    disableKnob (setDisable [{ NodeData.dflt with clones := [1] },
      { NodeData.dflt with source_node := some 0 }] 1 true) 0 = .bool true ∧
    disableKnob (setDisable [{ NodeData.dflt with clones := [1] },
      { NodeData.dflt with source_node := some 0 }] 1 true) 1 = .bool true := by
  refine ⟨c6_setDisable_propagates_through_clone_family
      [{ NodeData.dflt with clones := [1] }, { NodeData.dflt with source_node := some 0 }]
      0 1 true (by decide) (Or.inr (by decide)) ?_ ?_ 0 (Or.inl rfl),
    c6_setDisable_propagates_through_clone_family
      [{ NodeData.dflt with clones := [1] }, { NodeData.dflt with source_node := some 0 }]
      0 1 true (by decide) (Or.inr (by decide)) ?_ ?_ 1 (Or.inr (by decide))⟩ <;>
    intro c hc <;> fin_cases hc <;> decide

/-- C2, amended. When the parser reaches a knob line whose quoted (resp.
brace-delimited) value is still unbalanced when the line stream runs out, the
parse aborts with the `StopIteration` raised by `next(lines)`; the knob is not
assigned and no recovery takes place. The hypotheses state that the line is
dispatched to the knob branch (none of the earlier branches of the `elif`
chain match) and that the multi-line loop exhausts the remaining lines. -/
theorem c2_truncation_aborts_with_stopiteration (gizmos : List (String × Gizmo)) (stem : String)
    (st : PState) (line : String) (rest : List String) (keyL valL : List Char)
    (h0 : containsSubL "push 0".toList line.toList = false)
    (h1 : branchKey? line.toList = none)
    (h2 : pushKey? line.toList = none)
    (h3 : containsSubL "end_group".toList line.toList = false)
    (h4 : cloneKey? line.toList = none)
    (h5 : nodeOpenType? line.toList = none)
    (h6 : nodeKnob? line.toList = some (keyL, valL))
    (h7 : (valL.head? = some '"' ∧ consumeQuote (quoteCount valL) valL rest = none) ∨
          (valL.head? = some '{' ∧ consumeBrace (braceCount valL) valL rest = none)) :
    stepLine gizmos stem line rest st = .error .stopIteration := by
  unfold stepLine stepClone stepOpen stepKnob
  simp only [h0, h1, h2, h3, h4, h5, h6]
  rcases h7 with ⟨hq, hcq⟩ | ⟨hb, hcb⟩
  · simp [hq, hcq]
  · simp [hb, hcb]

/-- C2, witness: a knob line opening an unbalanced quote (resp. brace) as the
last line of the stream aborts with `StopIteration`. -/
theorem c2_truncation_aborts_with_stopiteration_witness :
    stepLine [] "scene" " message \"abc\n" [] initState = .error .stopIteration ∧
    stepLine [] "scene" " message \x7babc\n" [] initState = .error .stopIteration :=
  ⟨c2_truncation_aborts_with_stopiteration [] "scene" initState " message \"abc\n" []
      "message".toList "\"abc".toList (by decide) (by decide) (by decide) (by decide)
      (by decide) (by decide) (by decide) (Or.inl ⟨by decide, by decide⟩),
   c2_truncation_aborts_with_stopiteration [] "scene" initState " message \x7babc\n" []
      "message".toList "\x7babc".toList (by decide) (by decide) (by decide) (by decide)
      (by decide) (by decide) (by decide) (Or.inr ⟨by decide, by decide⟩)⟩

/-- C7, amended. When the parser reaches a `clone $KEY {` directive (no
earlier branch matches and no node block is open), three things can happen:
a key absent from the branch table aborts the parse with the KeyError of
`node_map[key]`; a key that was saved while the value stack's top was the
empty entry is present but bound to `None`, and the directive aborts with the
AttributeError of `None.Class()`; a key bound to an actual node proceeds
without error. So the claim's lookup-error half is right, but saved keys can
still raise. -/
theorem c7_clone_key_lookup_amended (gizmos : List (String × Gizmo)) (stem : String)
    (st : PState) (line : String) (rest : List String) (keyL : List Char)
    (h0 : containsSubL "push 0".toList line.toList = false)
    (h1 : branchKey? line.toList = none)
    (h2 : pushKey? line.toList = none)
    (h3 : containsSubL "end_group".toList line.toList = false)
    (h4 : cloneKey? line.toList = some keyL)
    (h5 : st.class_ = "") :
    (getAssoc st.nodeMap (String.mk keyL) = none →
      stepLine gizmos stem line rest st = .error .keyError) ∧
    (getAssoc st.nodeMap (String.mk keyL) = some none →
      stepLine gizmos stem line rest st = .error .attributeError) ∧
    (∀ src, getAssoc st.nodeMap (String.mk keyL) = some (some src) →
      ∃ st' : PState, stepLine gizmos stem line rest st = .ok (st', 0)) := by
  unfold stepLine stepClone
  simp only [h0, h1, h2, h3, h4, h5]
  refine ⟨fun hl => by simp [hl], fun hl => by simp [hl], fun src hl => ?_⟩
  simp [hl]

/-- C7, witness: `clone $K {` raises KeyError when `K` was never saved,
AttributeError when `K` was saved as `None`, and succeeds when `K` was saved
as node `0`. -/
theorem c7_clone_key_lookup_amended_witness :
    stepLine [] "scene" "clone $K \x7b\n" [] initState = .error .keyError ∧
    stepLine [] "scene" "clone $K \x7b\n" []
      { initState with nodeMap := [("K", none)] } = .error .attributeError ∧
    ∃ st' : PState, stepLine [] "scene" "clone $K \x7b\n" []
      { initState with nodeMap := [("K", some 0)] } = .ok (st', 0) :=
  ⟨(c7_clone_key_lookup_amended [] "scene" initState "clone $K \x7b\n" [] "K".toList
      (by decide) (by decide) (by decide) (by decide) (by decide) (by decide)).1 (by decide),
   (c7_clone_key_lookup_amended [] "scene" { initState with nodeMap := [("K", none)] }
      "clone $K \x7b\n" [] "K".toList
      (by decide) (by decide) (by decide) (by decide) (by decide) (by decide)).2.1 (by decide),
   (c7_clone_key_lookup_amended [] "scene" { initState with nodeMap := [("K", some 0)] }
      "clone $K \x7b\n" [] "K".toList
      (by decide) (by decide) (by decide) (by decide) (by decide) (by decide)).2.2 0 (by decide)⟩

/-- Dead indices read as the default node. -/
theorem get_out_of_range (h : Heap) (j : Nat) (hj : Heap.len h ≤ j) :
    Heap.get h j = NodeData.dflt := by
  unfold Heap.get Heap.len at *
  rw [List.getD_eq_getElem?_getD, List.getElem?_eq_none hj]
  rfl

/-- Appending to the arena preserves existing nodes. -/
theorem get_append_left (h : Heap) (l : List NodeData) (j : Nat) (hj : j < Heap.len h) :
    Heap.get (List.append h l) j = Heap.get h j := by
  unfold Heap.get Heap.len at *
  rw [List.append_eq, List.getD_eq_getElem?_getD, List.getD_eq_getElem?_getD,
    List.getElem?_append, if_pos hj]

/-- Reading inside the appended block. -/
theorem get_append_at (h : Heap) (l : List NodeData) (j : Nat) :
    Heap.get (List.append h l) (Heap.len h + j) = l.getD j NodeData.dflt := by
  unfold Heap.get Heap.len
  rw [List.append_eq, List.getD_eq_getElem?_getD, List.getD_eq_getElem?_getD,
    List.getElem?_append_right (by omega), Nat.add_sub_cancel_left]

/-- Arena length after an append. -/
theorem len_append (h : Heap) (l : List NodeData) :
    Heap.len (List.append h l) = Heap.len h + l.length := by
  unfold Heap.len
  rw [List.append_eq, List.length_append]

theorem invFields_refl (a : NodeData) : invFields a a := ⟨rfl, rfl, rfl, rfl, rfl⟩

theorem invFields_trans {a b c : NodeData} (h1 : invFields a b) (h2 : invFields b c) :
    invFields a c := by
  obtain ⟨e1, e2, e3, e4, e5⟩ := h1
  obtain ⟨f1, f2, f3, f4, f5⟩ := h2
  exact ⟨e1.trans f1, e2.trans f2, e3.trans f3, e4.trans f4, e5.trans f5⟩

theorem arityOk_of_invFields {a b : NodeData} (hf : invFields a b) (ha : arityOk b) :
    arityOk a := by
  obtain ⟨n, hn, hl⟩ := ha
  exact ⟨n, by rw [hf.2.1]; exact hn, by rw [hf.2.2.1]; exact hl⟩

theorem sameInv_refl (h : Heap) : SameInv h h := ⟨rfl, fun _ => invFields_refl _⟩

theorem sameInv_trans {h1 h2 h3 : Heap} (a : SameInv h1 h2) (b : SameInv h2 h3) :
    SameInv h1 h3 := ⟨b.1.trans a.1, fun j => invFields_trans (b.2 j) (a.2 j)⟩

/-- The suspended invariant transfers along invariant-field-preserving
rewrites of the arena. -/
theorem invHeapX_of_sameInv {h h' : Heap} {x : Nat} (hs : SameInv h h')
    (hi : InvHeapX h x) : InvHeapX h' x := by
  obtain ⟨hlen, hf⟩ := hs
  obtain ⟨ha, hb, hc⟩ := hi
  refine ⟨fun i hilt => ?_, fun i hilt => ?_, fun i hilt hix hicl => ?_⟩
  · exact arityOk_of_invFields (hf i) (ha i (by omega))
  · intro c hcmem
    rw [hlen]
    exact hb i (by omega) c (by rw [← (hf i).2.2.2.1]; exact hcmem)
  · rw [hlen] at hilt
    have hicl' : (Heap.get h i).class_ ∉ ROOT_NODE_CLASSES := by
      rw [← (hf i).1]; exact hicl
    obtain ⟨p, hp, hpar, hcnt⟩ := hc i hilt hix hicl'
    refine ⟨p, by omega, ?_, ?_⟩
    · rw [(hf i).2.2.2.2]; exact hpar
    · rw [(hf p).2.2.2.1]; exact hcnt

/-- The full invariant transfers the same way. -/
theorem invHeap_of_sameInv {h h' : Heap} (hs : SameInv h h') (hi : InvHeap h) :
    InvHeap h' := by
  obtain ⟨ha, hb, hc⟩ := hi
  have hx : InvHeapX h' 0 ∧ InvHeapX h' 1 :=
    ⟨invHeapX_of_sameInv hs ⟨ha, hb, fun i h1 _ => hc i h1⟩,
     invHeapX_of_sameInv hs ⟨ha, hb, fun i h1 _ => hc i h1⟩⟩
  obtain ⟨⟨ha0, hb0, hc0⟩, ⟨_, _, hc1⟩⟩ := hx
  refine ⟨ha0, hb0, fun i hilt hicl => ?_⟩
  by_cases hi0 : i = 0
  · exact hc1 i hilt (by omega) hicl
  · exact hc0 i hilt hi0 hicl

/-- A suspended invariant whose exempted node has a root class is a full
invariant (root-class nodes are exempt anyway). -/
theorem invHeap_of_invHeapX {h : Heap} {x : Nat} (hi : InvHeapX h x)
    (hx : (Heap.get h x).class_ ∈ ROOT_NODE_CLASSES) : InvHeap h := by
  obtain ⟨ha, hb, hc⟩ := hi
  refine ⟨ha, hb, fun i hilt hicl => ?_⟩
  by_cases hix : i = x
  · subst hix
    exact absurd hx hicl
  · exact hc i hilt hix hicl

/-- Removal of one key leaves the others readable. -/
theorem getKnob_removeKnob_ne (ks : Knobs) (k k' : String) (hne : k' ≠ k) :
    getKnob (removeKnob ks k) k' = getKnob ks k' := by
  induction ks with
  | nil => rfl
  | cons kv rest ih =>
    obtain ⟨k0, v0⟩ := kv
    simp only [removeKnob]
    by_cases hk : k0 = k
    · rw [if_pos hk]
      simp only [getKnob]
      rw [if_neg (by rw [hk]; exact fun hh => hne hh.symm)]
    · rw [if_neg hk]
      by_cases hk' : k0 = k' <;> simp [getKnob, hk', ih]

/-- Appending one node: existing reads unchanged (on the invariant fields),
the new slot holds the node, length grows by one. -/
theorem append_one_invFields (h : Heap) (nd : NodeData) (j : Nat) (hj : j ≠ Heap.len h) :
    invFields (Heap.get (List.append h [nd]) j) (Heap.get h j) := by
  by_cases hlt : j < Heap.len h
  · rw [get_append_left h [nd] j hlt]
    exact invFields_refl _
  · have h1 : Heap.len h ≤ j := by omega
    have h2 : Heap.len (List.append h [nd]) ≤ j := by
      rw [len_append]
      simp only [List.length_cons, List.length_nil]
      omega
    rw [get_out_of_range _ j h2, get_out_of_range h j h1]
    exact invFields_refl _

/-- The new slot of a one-node append. -/
theorem get_append_one (h : Heap) (nd : NodeData) :
    Heap.get (List.append h [nd]) (Heap.len h) = nd := by
  have := get_append_at h [nd] 0
  simpa using this

/-- A clones-only mutation leaves every node's invariant fields unchanged. -/
theorem invFields_mod_clones (hh : Heap) (s : Nat) (g : NodeData → List Nat) (j : Nat) :
    invFields (Heap.get (Heap.mod hh s (fun d => { d with clones := g d })) j)
      (Heap.get hh j) := by
  rw [get_mod]
  split
  · rename_i hc
    rw [hc.1]
    exact ⟨rfl, rfl, rfl, rfl, rfl⟩
  · exact invFields_refl _

/-- The guarantee for the plain-append outcome of `buildNode`. -/
theorem buildSpec_append (h : Heap) (nd : NodeData) (c : String)
    (hch : nd.children = []) (hpar : nd.parent = none) (hcl : nd.class_ = c)
    (har : arityOk nd) :
    BuildSpec h (List.append h [nd]) (Heap.len h) c := by
  refine ⟨rfl, ?_, fun j hj => append_one_invFields h nd j hj, ?_, ?_, ?_, ?_⟩
  · rw [len_append]
    simp
  · rw [get_append_one]
    exact hch
  · rw [get_append_one]
    exact hpar
  · rw [get_append_one]
    exact hcl
  · rw [get_append_one]
    exact har

/-- The guarantee for the append-then-register-clone outcome of `buildNode`. -/
theorem buildSpec_append_mod (h : Heap) (nd : NodeData) (c : String) (s : Nat)
    (g : NodeData → List Nat)
    (hch : nd.children = []) (hpar : nd.parent = none) (hcl : nd.class_ = c)
    (har : arityOk nd) :
    BuildSpec h (Heap.mod (List.append h [nd]) s (fun d => { d with clones := g d }))
      (Heap.len h) c := by
  have hmf := invFields_mod_clones (List.append h [nd]) s g
  have hbase := buildSpec_append h nd c hch hpar hcl har
  obtain ⟨_, hlen, hothers, hc1, hc2, hc3, hc4⟩ := hbase
  refine ⟨rfl, ?_, fun j hj => invFields_trans (hmf j) (hothers j hj), ?_, ?_, ?_, ?_⟩
  · rw [len_mod]
    exact hlen
  · rw [(hmf (Heap.len h)).2.2.2.1]
    exact hc1
  · rw [(hmf (Heap.len h)).2.2.2.2]
    exact hc2
  · rw [(hmf (Heap.len h)).1]
    exact hc3
  · exact arityOk_of_invFields (hmf (Heap.len h)) hc4

/-- What `Node.__init__` guarantees; see `BuildSpec`. -/
theorem buildNode_spec (h : Heap) (c : String) (ks : Knobs) (h' : Heap) (nid : Nat)
    (hb : buildNode h c ks = some (h', nid)) : BuildSpec h h' nid c := by
  unfold buildNode at hb
  dsimp only at hb
  cases heval : evalInputs (getKnobD (updateKnobs [("inputs", KnobValue.int 1)] ks) "inputs"
      (.int 1)) with
  | none => rw [heval] at hb; cases hb
  | some n =>
    rw [heval] at hb
    dsimp only at hb
    have harity : ∀ (suf : String) (src : Option Nat), arityOk
        { class_ := c,
          knobs := removeKnob (removeKnob (updateKnobs [("inputs", KnobValue.int 1)] ks)
            "__clone__") "__source__",
          inputs := List.replicate n.toNat none, outputs := [], children := [],
          parent := none, is_gizmo := false, clone_suffix := suf,
          source_node := src, clones := [] } := by
      intro suf src
      refine ⟨n, ?_, by simp⟩
      unfold getKnobD
      rw [getKnob_removeKnob_ne _ _ _ (by decide), getKnob_removeKnob_ne _ _ _ (by decide)]
      exact heval
    cases hsrc : getKnob (updateKnobs [("inputs", KnobValue.int 1)] ks) "__source__" with
    | none =>
      rw [hsrc] at hb
      dsimp only at hb
      injection hb with hp
      injection hp with hh hn
      subst hh
      subst hn
      exact buildSpec_append h _ c rfl rfl rfl (harity _ _)
    | some v =>
      rw [hsrc] at hb
      cases v with
      | node i =>
        dsimp only at hb
        injection hb with hp
        injection hp with hh hn
        subst hh
        subst hn
        exact buildSpec_append_mod h _ c i _ rfl rfl rfl (harity _ _)
      | int m =>
        dsimp only at hb
        injection hb with hp
        injection hp with hh hn
        subst hh
        subst hn
        exact buildSpec_append h _ c rfl rfl rfl (harity _ _)
      | str s2 =>
        dsimp only at hb
        injection hb with hp
        injection hp with hh hn
        subst hh
        subst hn
        exact buildSpec_append h _ c rfl rfl rfl (harity _ _)
      | bool b =>
        dsimp only at hb
        injection hb with hp
        injection hp with hh hn
        subst hh
        subst hn
        exact buildSpec_append h _ c rfl rfl rfl (harity _ _)

theorem invFields_mod_outputs (hh : Heap) (o : Nat) (g : NodeData → List (Option Nat)) (j : Nat) :
    invFields (Heap.get (Heap.mod hh o (fun d => { d with outputs := g d })) j)
      (Heap.get hh j) := by
  rw [get_mod]
  split
  · rename_i hc
    rw [hc.1]
    exact ⟨rfl, rfl, rfl, rfl, rfl⟩
  · exact invFields_refl _

theorem sameInv_mod_outputs (hh : Heap) (o : Nat) (g : NodeData → List (Option Nat)) :
    SameInv hh (Heap.mod hh o (fun d => { d with outputs := g d })) :=
  ⟨len_mod _ _ _, fun j => invFields_mod_outputs hh o g j⟩

theorem invFields_mod_inputs_set (hh : Heap) (i slot : Nat) (m : Option Nat) (j : Nat) :
    invFields (Heap.get (Heap.mod hh i (fun d => { d with inputs := d.inputs.set slot m })) j)
      (Heap.get hh j) := by
  rw [get_mod]
  split
  · rename_i hc
    rw [hc.1]
    exact ⟨rfl, rfl, by simp, rfl, rfl⟩
  · exact invFields_refl _

theorem sameInv_mod_inputs_set (hh : Heap) (i slot : Nat) (m : Option Nat) :
    SameInv hh (Heap.mod hh i (fun d => { d with inputs := d.inputs.set slot m })) :=
  ⟨len_mod _ _ _, fun j => invFields_mod_inputs_set hh i slot m j⟩

theorem setInputE_sameInv (h : Heap) (i slot : Nat) (m : Option Nat) (h' : Heap)
    (hok : setInputE h i slot m = .ok h') : SameInv h h' := by
  unfold setInputE at hok
  dsimp only at hok
  by_cases hlt : slot < (Heap.get h i).inputs.length
  · rw [if_pos hlt] at hok
    cases m with
    | none =>
      cases hold : (Heap.get h i).inputs.getD slot none with
      | none =>
        rw [hold] at hok
        dsimp only at hok
        injection hok with heq
        subst heq
        exact sameInv_mod_inputs_set h i slot none
      | some o =>
        rw [hold] at hok
        dsimp only at hok
        by_cases hcont : ((Heap.get h o).outputs).contains (some i)
        · rw [if_pos hcont] at hok
          injection hok with heq
          subst heq
          exact sameInv_trans (sameInv_mod_outputs h o _) (sameInv_mod_inputs_set _ i slot none)
        · rw [if_neg hcont] at hok
          injection hok with heq
          subst heq
          exact sameInv_mod_inputs_set h i slot none
    | some t =>
      cases hold : (Heap.get h i).inputs.getD slot none with
      | none =>
        rw [hold] at hok
        dsimp only at hok
        injection hok with heq
        subst heq
        exact sameInv_trans (sameInv_mod_inputs_set h i slot (some t))
          (sameInv_mod_outputs _ t _)
      | some o =>
        rw [hold] at hok
        dsimp only at hok
        by_cases hcont : ((Heap.get h o).outputs).contains (some i)
        · rw [if_pos hcont] at hok
          injection hok with heq
          subst heq
          exact sameInv_trans (sameInv_trans (sameInv_mod_outputs h o _)
            (sameInv_mod_inputs_set _ i slot (some t))) (sameInv_mod_outputs _ t _)
        · rw [if_neg hcont] at hok
          injection hok with heq
          subst heq
          exact sameInv_trans (sameInv_mod_inputs_set h i slot (some t))
            (sameInv_mod_outputs _ t _)
  · rw [if_neg hlt] at hok
    cases hok

theorem connectGo_sameInv (nid : Nat) :
    ∀ (cnt idx : Nat) (h : Heap) (main : List (Option Nat)) (h' : Heap)
      (main' : List (Option Nat)),
      connectGo nid idx cnt h main = .ok (h', main') → SameInv h h' := by
  intro cnt
  induction cnt with
  | zero =>
    intro idx h main h' main' hok
    unfold connectGo at hok
    injection hok with heq
    injection heq with heq1 heq2
    subst heq1
    exact sameInv_refl h
  | succ cnt ih =>
    intro idx h main h' main' hok
    unfold connectGo at hok
    dsimp only at hok
    cases hsi : setInputE h nid idx (popMain main).1 with
    | error e => rw [hsi] at hok; cases hok
    | ok h1 =>
      rw [hsi] at hok
      dsimp only at hok
      exact sameInv_trans (setInputE_sameInv h nid idx _ h1 hsi)
        (ih (idx + 1) h1 (popMain main).2 h' main' hok)


theorem getKnob_shift (k : Nat) (ks : Knobs) (key : String) :
    getKnob (ks.map (fun kv => (kv.1, shiftVal k kv.2))) key =
      (getKnob ks key).map (shiftVal k) := by
  induction ks with
  | nil => rfl
  | cons kv rest ih =>
    obtain ⟨k0, v0⟩ := kv
    by_cases hk : k0 = key <;> simp [getKnob, hk, ih]

theorem evalInputs_shiftVal (k : Nat) (v : KnobValue) :
    evalInputs (shiftVal k v) = evalInputs v := by
  cases v <;> rfl

theorem arityOk_shift (k : Nat) (nd : NodeData) (ha : arityOk nd) :
    arityOk (shiftNode k nd) := by
  obtain ⟨n, hn, hl⟩ := ha
  refine ⟨n, ?_, ?_⟩
  · show evalInputs (getKnobD (nd.knobs.map (fun kv => (kv.1, shiftVal k kv.2))) "inputs"
      (.int 1)) = some n
    unfold getKnobD at *
    rw [getKnob_shift]
    cases hq : getKnob nd.knobs "inputs" with
    | none =>
      rw [hq] at hn
      simpa using hn
    | some v =>
      rw [hq] at hn
      simp only [Option.map_some', Option.getD_some] at *
      rw [evalInputs_shiftVal]
      exact hn
  · show (nd.inputs.map (Option.map (· + k))).length = n.toNat
    simp [hl]

theorem map_getD_dflt (f : NodeData → NodeData) (o : Option NodeData)
    (hf : f NodeData.dflt = NodeData.dflt) :
    (o.map f).getD NodeData.dflt = f (o.getD NodeData.dflt) := by
  cases o <;> simp [hf]

theorem instantiateGizmo_spec (h : Heap) (nid : Nat) (g : Gizmo)
    (hnid : nid < Heap.len h) :
    Heap.len (instantiateGizmo h nid g) = Heap.len h + Heap.len g.heap ∧
    (∀ j, j < Heap.len h → j ≠ nid → Heap.get (instantiateGizmo h nid g) j = Heap.get h j) ∧
    ((Heap.get (instantiateGizmo h nid g) nid).class_ = (Heap.get h nid).class_ ∧
     (Heap.get (instantiateGizmo h nid g) nid).knobs = (Heap.get h nid).knobs ∧
     (Heap.get (instantiateGizmo h nid g) nid).inputs = (Heap.get h nid).inputs ∧
     (Heap.get (instantiateGizmo h nid g) nid).parent = (Heap.get h nid).parent ∧
     (Heap.get (instantiateGizmo h nid g) nid).children =
       (Heap.get h nid).children ++ (Heap.get g.heap g.id).children.map (· + Heap.len h)) ∧
    (∀ j, j < Heap.len g.heap →
      Heap.get (instantiateGizmo h nid g) (Heap.len h + j) =
        shiftNode (Heap.len h) (Heap.get g.heap j)) := by
  unfold instantiateGizmo
  dsimp only
  have hlen1 : Heap.len (List.append h (List.map (shiftNode (Heap.len h)) g.heap)) =
      Heap.len h + Heap.len g.heap := by
    rw [len_append, List.length_map]
    rfl
  refine ⟨?_, fun j hj hjn => ?_, ?_, fun j hj => ?_⟩
  · rw [len_mod, hlen1]
  · rw [get_mod, if_neg (by tauto), get_append_left _ _ j hj]
  · rw [get_mod, if_pos ⟨rfl, by omega⟩, get_append_left _ _ nid hnid]
    exact ⟨rfl, rfl, rfl, rfl, rfl⟩
  · rw [get_mod, if_neg (by omega), get_append_at]
    unfold Heap.get
    rw [List.getD_eq_getElem?_getD, List.getD_eq_getElem?_getD, List.getElem?_map]
    exact map_getD_dflt _ _ rfl


theorem count_eq_zero_of_bounded (l : List Nat) (x : Nat) (hb : ∀ c ∈ l, c < x) :
    l.count x = 0 :=
  List.count_eq_zero.mpr (fun hx => absurd (hb x hx) (lt_irrefl x))

theorem invHeapX_instantiate (h : Heap) (nid : Nat) (g : Gizmo)
    (hw : GizmoWf g) (hnid : nid < Heap.len h)
    (hx : InvHeapX h nid) (hch : (Heap.get h nid).children = []) :
    InvHeapX (instantiateGizmo h nid g) nid := by
  obtain ⟨hlen', hold, hnidf, hblock⟩ := instantiateGizmo_spec h nid g hnid
  obtain ⟨⟨hga, hgb, hgc⟩, hgid⟩ := hw
  obtain ⟨ha, hb, hc⟩ := hx
  refine ⟨fun i hilt => ?_, fun i hilt => ?_, fun i hilt hin hicl => ?_⟩
  · rw [hlen'] at hilt
    by_cases hio : i < Heap.len h
    · by_cases hin : i = nid
      · rw [hin]
        obtain ⟨n, hn, hl⟩ := ha nid hnid
        exact ⟨n, by rw [hnidf.2.1]; exact hn, by rw [hnidf.2.2.1]; exact hl⟩
      · rw [hold i hio hin]
        exact ha i hio
    · have hieq : i = Heap.len h + (i - Heap.len h) := by omega
      rw [hieq, hblock _ (by omega)]
      exact arityOk_shift _ _ (hga _ (by omega))
  · rw [hlen'] at hilt
    intro cc hcm
    rw [hlen']
    by_cases hio : i < Heap.len h
    · by_cases hin : i = nid
      · rw [hin] at hcm
        rw [hnidf.2.2.2.2] at hcm
        rcases List.mem_append.mp hcm with hml | hmr
        · have := hb nid hnid cc hml
          omega
        · rcases List.mem_map.mp hmr with ⟨c0, hc0m, rfl⟩
          have := hgb g.id hgid c0 hc0m
          omega
      · rw [hold i hio hin] at hcm
        have := hb i hio cc hcm
        omega
    · have hgeti : Heap.get (instantiateGizmo h nid g) i =
          shiftNode (Heap.len h) (Heap.get g.heap (i - Heap.len h)) := by
        have hieq : i = Heap.len h + (i - Heap.len h) := by omega
        conv_lhs => rw [hieq]
        exact hblock _ (by omega)
      rw [hgeti] at hcm
      simp only [shiftNode] at hcm
      rcases List.mem_map.mp hcm with ⟨c0, hc0m, rfl⟩
      have := hgb (i - Heap.len h) (by omega) c0 hc0m
      omega
  · rw [hlen'] at hilt
    by_cases hio : i < Heap.len h
    · have hicl' : (Heap.get h i).class_ ∉ ROOT_NODE_CLASSES := by
        rw [← hold i hio hin]
        exact hicl
      obtain ⟨p, hp, hpar, hcnt⟩ := hc i hio hin hicl'
      have hpn : p ≠ nid := by
        intro hpe
        subst hpe
        rw [hch] at hcnt
        simp at hcnt
      refine ⟨p, by rw [hlen']; omega, ?_, ?_⟩
      · rw [hold i hio hin]
        exact hpar
      · rw [hold p hp hpn]
        exact hcnt
    · have hj0 : i - Heap.len h < Heap.len g.heap := by omega
      have hgeti : Heap.get (instantiateGizmo h nid g) i =
          shiftNode (Heap.len h) (Heap.get g.heap (i - Heap.len h)) := by
        have hieq : i = Heap.len h + (i - Heap.len h) := by omega
        conv_lhs => rw [hieq]
        exact hblock _ hj0
      have hicl' : (Heap.get g.heap (i - Heap.len h)).class_ ∉ ROOT_NODE_CLASSES := by
        rw [hgeti] at hicl
        exact hicl
      obtain ⟨p0, hp0, hpar0, hcnt0⟩ := hgc _ hj0 hicl'
      refine ⟨p0 + Heap.len h, by rw [hlen']; omega, ?_, ?_⟩
      · rw [hgeti]
        show ((Heap.get g.heap (i - Heap.len h)).parent).map (· + Heap.len h) =
          some (p0 + Heap.len h)
        rw [hpar0]
        rfl
      · have hpeq : p0 + Heap.len h = Heap.len h + p0 := by omega
        have hgp : Heap.get (instantiateGizmo h nid g) (p0 + Heap.len h) =
            shiftNode (Heap.len h) (Heap.get g.heap p0) := by
          rw [hpeq]
          exact hblock p0 hp0
        rw [hgp]
        show List.count i ((Heap.get g.heap p0).children.map (· + Heap.len h)) = 1
        have hieq2 : i = (i - Heap.len h) + Heap.len h := by omega
        rw [hieq2, List.count_map_of_injective _ _ (add_left_injective _) _]
        exact hcnt0


theorem addChild_get (h : Heap) (nid p : Nat)
    (hnid : nid < Heap.len h) (hp : p < Heap.len h) (hpne : p ≠ nid) (j : Nat) :
    Heap.get (Heap.mod (Heap.mod h p (fun d => { d with children := d.children ++ [nid] })) nid
      (fun d => { d with parent := some p })) j =
      (if j = nid then { Heap.get h nid with parent := some p }
      else if j = p then { Heap.get h p with children := (Heap.get h p).children ++ [nid] }
      else Heap.get h j) := by
  rw [get_mod, len_mod, get_mod, get_mod]
  by_cases hj1 : j = nid
  · rw [if_pos ⟨hj1, hnid⟩, if_neg (fun hcon => hpne hcon.1.symm), if_pos hj1]
  · rw [if_neg (fun hcon => hj1 hcon.1), if_neg hj1]
    by_cases hj2 : j = p
    · rw [if_pos ⟨hj2, hp⟩, if_pos hj2]
    · rw [if_neg (fun hcon => hj2 hcon.1), if_neg hj2]

theorem invHeap_addChild (h : Heap) (nid p : Nat)
    (hx : InvHeapX h nid)
    (hnid : nid < Heap.len h) (hp : p < Heap.len h) (hpne : p ≠ nid)
    (hpb : ∀ c ∈ (Heap.get h p).children, c < nid) :
    InvHeap (Heap.mod (Heap.mod h p (fun d => { d with children := d.children ++ [nid] })) nid
      (fun d => { d with parent := some p })) := by
  obtain ⟨ha, hb, hc⟩ := hx
  have hlen : Heap.len (Heap.mod (Heap.mod h p
      (fun d => { d with children := d.children ++ [nid] })) nid
      (fun d => { d with parent := some p })) = Heap.len h := by
    rw [len_mod, len_mod]
  have hget := addChild_get h nid p hnid hp hpne
  refine ⟨fun i hilt => ?_, fun i hilt => ?_, fun i hilt hicl => ?_⟩
  · rw [hlen] at hilt
    rw [hget i]
    by_cases hj1 : i = nid
    · rw [if_pos hj1]
      obtain ⟨n, hn, hl⟩ := ha nid hnid
      exact ⟨n, hn, hl⟩
    · rw [if_neg hj1]
      by_cases hj2 : i = p
      · rw [if_pos hj2]
        obtain ⟨n, hn, hl⟩ := ha p hp
        exact ⟨n, hn, hl⟩
      · rw [if_neg hj2]
        exact ha i hilt
  · rw [hlen] at hilt
    intro cc hcm
    rw [hlen]
    rw [hget i] at hcm
    by_cases hj1 : i = nid
    · rw [if_pos hj1] at hcm
      exact hb nid hnid cc hcm
    · rw [if_neg hj1] at hcm
      by_cases hj2 : i = p
      · rw [if_pos hj2] at hcm
        rcases List.mem_append.mp hcm with hml | hmr
        · exact hb p hp cc hml
        · rw [List.mem_singleton.mp hmr]
          exact hnid
      · rw [if_neg hj2] at hcm
        exact hb i hilt cc hcm
  · rw [hlen] at hilt
    rw [hget i] at hicl
    by_cases hj1 : i = nid
    · refine ⟨p, by rw [hlen]; exact hp, ?_, ?_⟩
      · rw [hget i, if_pos hj1]
      · rw [hget p, if_neg (fun hcon => hpne hcon), if_pos rfl]
        show List.count i ((Heap.get h p).children ++ [nid]) = 1
        rw [List.count_append, hj1, count_eq_zero_of_bounded _ nid hpb]
        simp
    · rw [if_neg hj1] at hicl
      have hicl2 : (Heap.get h i).class_ ∉ ROOT_NODE_CLASSES := by
        by_cases hj2 : i = p
        · rw [if_pos hj2] at hicl
          rw [hj2]
          exact hicl
        · rw [if_neg hj2] at hicl
          exact hicl
      obtain ⟨q, hq, hqpar, hqcnt⟩ := hc i hilt hj1 hicl2
      refine ⟨q, by rw [hlen]; exact hq, ?_, ?_⟩
      · rw [hget i, if_neg hj1]
        by_cases hj2 : i = p
        · rw [if_pos hj2]
          show (Heap.get h p).parent = some q
          rw [← hj2]
          exact hqpar
        · rw [if_neg hj2]
          exact hqpar
      · rw [hget q]
        by_cases hq1 : q = nid
        · rw [if_pos hq1]
          show List.count i (Heap.get h nid).children = 1
          rw [← hq1]
          exact hqcnt
        · rw [if_neg hq1]
          by_cases hq2 : q = p
          · rw [if_pos hq2]
            show List.count i ((Heap.get h p).children ++ [nid]) = 1
            rw [List.count_append, ← hq2]
            have hz : List.count i [nid] = 0 :=
              List.count_eq_zero.mpr (fun hmem => hj1 (List.mem_singleton.mp hmem))
            rw [hz, hqcnt]
          · rw [if_neg hq2]
            exact hqcnt

/-- After `buildNode`, the arena satisfies the invariant with the parent/child
clause suspended at the fresh node. -/
theorem invHeapX_of_build (h h' : Heap) (nid : Nat) (c : String)
    (hi : InvHeap h) (hb : BuildSpec h h' nid c) : InvHeapX h' nid := by
  obtain ⟨ha, hcb, hcc⟩ := hi
  obtain ⟨hnid, hlen, hoth, hch, hpar, hcl, har⟩ := hb
  refine ⟨fun i hilt => ?_, fun i hilt => ?_, fun i hilt hin hicl => ?_⟩
  · by_cases hin : i = nid
    · subst hin
      exact har
    · exact arityOk_of_invFields (hoth i hin) (ha i (by omega))
  · by_cases hin : i = nid
    · subst hin
      intro cc hcc2
      rw [hch] at hcc2
      cases hcc2
    · intro cc hcc2
      rw [(hoth i hin).2.2.2.1] at hcc2
      have := hcb i (by omega) cc hcc2
      omega
  · have hilt2 : i < Heap.len h := by omega
    have hicl2 : (Heap.get h i).class_ ∉ ROOT_NODE_CLASSES := by
      rw [← (hoth i hin).1]
      exact hicl
    obtain ⟨p, hp, hpar2, hcnt⟩ := hcc i hilt2 hicl2
    have hpnid : p ≠ nid := by omega
    refine ⟨p, by omega, ?_, ?_⟩
    · rw [(hoth i hin).2.2.2.2]
      exact hpar2
    · rw [(hoth p hpnid).2.2.2.1]
      exact hcnt


theorem getAssoc_mem {α : Type} (m : List (String × α)) (key : String) (v : α)
    (hl : getAssoc m key = some v) : (key, v) ∈ m := by
  induction m with
  | nil => cases hl
  | cons kv rest ih =>
    obtain ⟨k0, v0⟩ := kv
    unfold getAssoc at hl
    by_cases hk : k0 = key
    · rw [if_pos hk] at hl
      injection hl with hv
      rw [← hk, ← hv]
      exact List.mem_cons_self _ _
    · rw [if_neg hk] at hl
      exact List.mem_cons_of_mem _ (ih hl)

theorem stepClose_inv (gizmos : List (String × Gizmo)) (l : List Char) (st st' : PState)
    (k : Nat) (hg : ∀ e ∈ gizmos, GizmoWf e.2) (hs : InvState st)
    (hok : stepClose gizmos l st = .ok (st', k)) : InvState st' := by
  obtain ⟨hih, hpstk⟩ := hs
  unfold stepClose at hok
  by_cases hcond : nodeCloseMatch l ∧ st.class_ ≠ ""
  · rw [if_pos hcond] at hok
    cases hb : buildNode st.heap st.class_ st.knobs with
    | none => rw [hb] at hok; cases hok
    | some pr =>
      obtain ⟨h1, nid⟩ := pr
      rw [hb] at hok
      dsimp only at hok
      have hbs := buildNode_spec _ _ _ _ _ hb
      cases hev : evalInputs (getKnobD (Heap.get h1 nid).knobs "inputs" (.int 1)) with
      | none => rw [hev] at hok; cases hok
      | some n =>
        rw [hev] at hok
        dsimp only at hok
        cases hcg : connectGo nid 0 n.toNat h1 st.mainStack with
        | error e => rw [hcg] at hok; cases hok
        | ok pr2 =>
          obtain ⟨h2, main2⟩ := pr2
          rw [hcg] at hok
          dsimp only at hok
          have hsi2 : SameInv h1 h2 :=
            connectGo_sameInv nid n.toNat 0 h1 st.mainStack h2 main2 hcg
          have hX2 : InvHeapX h2 nid :=
            invHeapX_of_sameInv hsi2 (invHeapX_of_build _ _ _ _ hih hbs)
          have hnid2 : nid < Heap.len h2 := by
            rw [hsi2.1, hbs.2.1, hbs.1]
            omega
          have hlen2 : Heap.len st.heap ≤ Heap.len h2 := by
            rw [hsi2.1, hbs.2.1]
            omega
          have hch2 : (Heap.get h2 nid).children = [] := by
            rw [(hsi2.2 nid).2.2.2.1]
            exact hbs.2.2.2.1
          have hnidval : nid = Heap.len st.heap := hbs.1
          have holdch : ∀ j, j < Heap.len st.heap →
              (Heap.get h2 j).children = (Heap.get st.heap j).children := by
            intro j hj
            rw [(hsi2.2 j).2.2.2.1, (hbs.2.2.1 j (by omega)).2.2.2.1]
          -- gizmo phase
          have hmain : ∀ (h3 : Heap), InvHeapX h3 nid → nid < Heap.len h3 →
              Heap.len st.heap ≤ Heap.len h3 →
              (∀ j, j < Heap.len st.heap → j ≠ nid →
                (Heap.get h3 j).children = (Heap.get st.heap j).children) →
              ((if (Heap.get h3 nid).class_ = "LiveGroup" ∧
                  pyTruthy (getKnob (Heap.get h3 nid).knobs "file") then
                  Except.error PErr.ioError
                else
                  if (Heap.get h3 nid).class_ ∈ ROOT_NODE_CLASSES then
                    Except.ok ({ st with
                      heap := h3, mainStack := some nid :: main2, knobs := [], class_ := "",
                      parentsStack := nid :: st.parentsStack }, 0)
                  else
                    match st.parentsStack with
                    | [] => Except.error PErr.indexError
                    | p :: _ =>
                      Except.ok ({ st with
                        heap := Heap.mod (Heap.mod h3 p
                          (fun d => { d with children := d.children ++ [nid] })) nid
                          (fun d => { d with parent := some p }),
                        mainStack := some nid :: main2, knobs := [], class_ := "",
                        parentsStack :=
                          if (Heap.get (Heap.mod (Heap.mod h3 p
                              (fun d => { d with children := d.children ++ [nid] })) nid
                              (fun d => { d with parent := some p })) nid).class_ ∈
                              GROUP_NODE_CLASSES ∨
                            ((Heap.get (Heap.mod (Heap.mod h3 p
                              (fun d => { d with children := d.children ++ [nid] })) nid
                              (fun d => { d with parent := some p })) nid).class_ = "LiveGroup" ∧
                              pyTruthy (getKnob (Heap.get (Heap.mod (Heap.mod h3 p
                                (fun d => { d with children := d.children ++ [nid] })) nid
                                (fun d => { d with parent := some p })) nid).knobs "modified"))
                          then nid :: st.parentsStack
                          else st.parentsStack }, 0)) = .ok (st', k)) →
              InvState st' := by
            intro h3 hX3 hnid3 hlen3 hch3 hok3
            by_cases hlg : (Heap.get h3 nid).class_ = "LiveGroup" ∧
                pyTruthy (getKnob (Heap.get h3 nid).knobs "file")
            · rw [if_pos hlg] at hok3
              cases hok3
            · rw [if_neg hlg] at hok3
              by_cases hroot : (Heap.get h3 nid).class_ ∈ ROOT_NODE_CLASSES
              · rw [if_pos hroot] at hok3
                injection hok3 with hpair
                injection hpair with hst hk
                rw [← hst]
                refine ⟨invHeap_of_invHeapX hX3 hroot, ?_⟩
                intro q hq
                rcases List.mem_cons.mp hq with rfl | hq2
                · exact hnid3
                · exact lt_of_lt_of_le (hpstk q hq2) hlen3
              · rw [if_neg hroot] at hok3
                cases hps : st.parentsStack with
                | nil => rw [hps] at hok3; cases hok3
                | cons p rest =>
                  rw [hps] at hok3
                  dsimp only at hok3
                  injection hok3 with hpair
                  injection hpair with hst hk
                  rw [← hst]
                  have hpval : p < Heap.len st.heap := hpstk p (by rw [hps]; exact List.mem_cons_self _ _)
                  have hpne : p ≠ nid := by omega
                  have hpb3 : ∀ c ∈ (Heap.get h3 p).children, c < nid := by
                    intro c hcm
                    rw [hch3 p hpval hpne] at hcm
                    have := hih.2.1 p hpval c hcm
                    omega
                  have hinv5 := invHeap_addChild h3 nid p hX3 hnid3
                    (by omega) hpne hpb3
                  refine ⟨hinv5, ?_⟩
                  intro q hq
                  dsimp only at hq
                  have hlen5 : Heap.len (Heap.mod (Heap.mod h3 p
                      (fun d => { d with children := d.children ++ [nid] })) nid
                      (fun d => { d with parent := some p })) = Heap.len h3 := by
                    rw [len_mod, len_mod]
                  rw [hlen5]
                  split at hq
                  · rcases List.mem_cons.mp hq with rfl | hq2
                    · exact hnid3
                    · exact lt_of_lt_of_le (hpstk q (by rw [hps]; exact hq2)) hlen3
                  · exact lt_of_lt_of_le (hpstk q (by rw [hps]; exact hq)) hlen3
          cases hgz : getAssoc gizmos (Heap.get h2 nid).class_ with
          | none =>
            rw [hgz] at hok
            dsimp only at hok
            exact hmain h2 hX2 hnid2 hlen2 (fun j hj hjn => holdch j hj) hok
          | some g =>
            rw [hgz] at hok
            dsimp only at hok
            have hgw : GizmoWf g := hg _ (getAssoc_mem gizmos _ g hgz)
            obtain ⟨hlen', hold3, hnidf3, hblock3⟩ := instantiateGizmo_spec h2 nid g hnid2
            refine hmain (instantiateGizmo h2 nid g)
              (invHeapX_instantiate h2 nid g hgw hnid2 hX2 hch2) (by omega) (by omega)
              (fun j hj hjn => ?_) hok
            rw [hold3 j (by omega) hjn]
            exact holdch j hj
  · rw [if_neg hcond] at hok
    injection hok with hpair
    injection hpair with hst hk
    rw [← hst]
    exact ⟨hih, hpstk⟩

theorem stepKnob_inv (gizmos : List (String × Gizmo)) (l : List Char) (rest : List String)
    (st st' : PState) (k : Nat) (hg : ∀ e ∈ gizmos, GizmoWf e.2) (hs : InvState st)
    (hok : stepKnob gizmos l rest st = .ok (st', k)) : InvState st' := by
  unfold stepKnob at hok
  cases h6 : nodeKnob? l with
  | none =>
    rw [h6] at hok
    exact stepClose_inv gizmos l st st' k hg hs hok
  | some kv =>
    obtain ⟨keyL, valL⟩ := kv
    rw [h6] at hok
    dsimp only at hok
    by_cases hv : ¬ (valL.head? = some '{' ∨ valL.head? = some '"')
    · rw [if_pos hv] at hok
      injection hok with hpair
      injection hpair with hst hk
      rw [← hst]
      exact ⟨hs.1, hs.2⟩
    · rw [if_neg hv] at hok
      by_cases hq2 : valL.head? = some '"'
      · rw [if_pos hq2] at hok
        cases hcq : consumeQuote (quoteCount valL) valL rest with
        | none => rw [hcq] at hok; cases hok
        | some pr =>
          obtain ⟨s, k2⟩ := pr
          rw [hcq] at hok
          dsimp only at hok
          injection hok with hpair
          injection hpair with hst hk
          rw [← hst]
          exact ⟨hs.1, hs.2⟩
      · rw [if_neg hq2] at hok
        cases hcb : consumeBrace (braceCount valL) valL rest with
        | none => rw [hcb] at hok; cases hok
        | some pr =>
          obtain ⟨s, k2⟩ := pr
          rw [hcb] at hok
          dsimp only at hok
          injection hok with hpair
          injection hpair with hst hk
          rw [← hst]
          exact ⟨hs.1, hs.2⟩

theorem stepOpen_inv (gizmos : List (String × Gizmo)) (stem : String) (l : List Char)
    (rest : List String) (st st' : PState) (k : Nat)
    (hg : ∀ e ∈ gizmos, GizmoWf e.2) (hs : InvState st)
    (hok : stepOpen gizmos stem l rest st = .ok (st', k)) : InvState st' := by
  unfold stepOpen at hok
  cases h5 : nodeOpenType? l with
  | none =>
    rw [h5] at hok
    exact stepKnob_inv gizmos l rest st st' k hg hs hok
  | some tyL =>
    rw [h5] at hok
    dsimp only at hok
    by_cases hcl : st.class_ = ""
    · rw [if_pos hcl] at hok
      injection hok with hpair
      injection hpair with hst hk
      rw [← hst]
      exact ⟨hs.1, hs.2⟩
    · rw [if_neg hcl] at hok
      exact stepKnob_inv gizmos l rest st st' k hg hs hok

theorem stepLine_inv (gizmos : List (String × Gizmo)) (stem : String) (line : String)
    (rest : List String) (st st' : PState) (k : Nat)
    (hg : ∀ e ∈ gizmos, GizmoWf e.2) (hs : InvState st)
    (hok : stepLine gizmos stem line rest st = .ok (st', k)) : InvState st' := by
  unfold stepLine at hok
  dsimp only at hok
  by_cases h0 : containsSubL "push 0".toList line.toList
  · rw [if_pos h0] at hok
    injection hok with hpair
    injection hpair with hst hk
    rw [← hst]
    exact ⟨hs.1, hs.2⟩
  · rw [if_neg h0] at hok
    cases h1 : branchKey? line.toList with
    | some keyL =>
      rw [h1] at hok
      dsimp only at hok
      by_cases h2 : containsSubL keyL "cut_paste_input".toList
      · rw [if_pos h2] at hok
        cases hb : buildNode st.heap "Root" [] with
        | none => rw [hb] at hok; cases hok
        | some pr =>
          obtain ⟨h', nid⟩ := pr
          rw [hb] at hok
          dsimp only at hok
          injection hok with hpair
          injection hpair with hst hk
          rw [← hst]
          have hbs := buildNode_spec _ _ _ _ _ hb
          have hX := invHeapX_of_build _ _ _ _ hs.1 hbs
          refine ⟨invHeap_of_invHeapX hX ?_, ?_⟩
          · rw [hbs.2.2.2.2.2.1]
            simp [ROOT_NODE_CLASSES]
          · intro q hq
            dsimp only at hq
            rcases List.mem_cons.mp hq with rfl | hq2
            · rw [hbs.2.1, hbs.1]
              omega
            · have := hs.2 q hq2
              rw [hbs.2.1]
              omega
      · rw [if_neg h2] at hok
        cases hms : st.mainStack with
        | nil => rw [hms] at hok; cases hok
        | cons top mtl =>
          rw [hms] at hok
          dsimp only at hok
          injection hok with hpair
          injection hpair with hst hk
          rw [← hst]
          exact ⟨hs.1, hs.2⟩
    | none =>
      rw [h1] at hok
      dsimp only at hok
      cases h2 : pushKey? line.toList with
      | some keyL =>
        rw [h2] at hok
        dsimp only at hok
        injection hok with hpair
        injection hpair with hst hk
        rw [← hst]
        exact ⟨hs.1, hs.2⟩
      | none =>
        rw [h2] at hok
        dsimp only at hok
        by_cases h3 : containsSubL "end_group".toList line.toList
        · rw [if_pos h3] at hok
          cases hps : st.parentsStack with
          | nil => rw [hps] at hok; cases hok
          | cons target ptail =>
            rw [hps] at hok
            dsimp only at hok
            injection hok with hpair
            injection hpair with hst hk
            rw [← hst]
            refine ⟨hs.1, ?_⟩
            intro q hq
            dsimp only at hq
            exact hs.2 q (by rw [hps]; exact List.mem_cons_of_mem _ hq)
        · rw [if_neg h3] at hok
          unfold stepClone at hok
          cases h4 : cloneKey? line.toList with
          | none =>
            rw [h4] at hok
            exact stepOpen_inv gizmos stem line.toList rest st st' k hg hs hok
          | some keyL =>
            rw [h4] at hok
            dsimp only at hok
            by_cases h5 : st.class_ = ""
            · rw [if_pos h5] at hok
              cases h6 : getAssoc st.nodeMap (String.mk keyL) with
              | none => rw [h6] at hok; cases hok
              | some o =>
                rw [h6] at hok
                cases o with
                | none => dsimp only at hok; cases hok
                | some src =>
                  dsimp only at hok
                  injection hok with hpair
                  injection hpair with hst hk
                  rw [← hst]
                  exact ⟨hs.1, hs.2⟩
            · rw [if_neg h5] at hok
              exact stepOpen_inv gizmos stem line.toList rest st st' k hg hs hok
theorem invState_init : InvState initState :=
  ⟨⟨fun i hi => absurd hi (Nat.not_lt_zero i), fun i hi => absurd hi (Nat.not_lt_zero i),
    fun i hi => absurd hi (Nat.not_lt_zero i)⟩,
   fun p hp => absurd hp (List.not_mem_nil p)⟩

theorem parseLinesFuel_inv (gizmos : List (String × Gizmo)) (stem : String)
    (hg : ∀ e ∈ gizmos, GizmoWf e.2) :
    ∀ (fuel : Nat) (lines : List String) (st st' : PState),
      InvState st → parseLinesFuel gizmos stem fuel lines st = .ok st' → InvState st' := by
  intro fuel
  induction fuel with
  | zero =>
    intro lines st st' hs hok
    unfold parseLinesFuel at hok
    injection hok with hst
    rw [← hst]
    exact hs
  | succ fuel ih =>
    intro lines st st' hs hok
    cases lines with
    | nil =>
      unfold parseLinesFuel at hok
      injection hok with hst
      rw [← hst]
      exact hs
    | cons line rest =>
      unfold parseLinesFuel at hok
      cases hsl : stepLine gizmos stem line rest st with
      | error e => rw [hsl] at hok; cases hok
      | ok pr =>
        obtain ⟨st1, k⟩ := pr
        rw [hsl] at hok
        dsimp only at hok
        exact ih (rest.drop k) st1 st' (stepLine_inv gizmos stem line rest st st1 k hg hs hsl) hok

theorem finishParse_eq (hh : Heap) (ps : List Nat) : finishParse hh ps = (hh, ps.head?) := rfl

/-- A successful parse returns an arena satisfying the structural invariant,
provided every gizmo registry entry is itself well formed. -/
theorem parseNk_invHeap (gizmos : List (String × Gizmo)) (stem : String) (isG : Bool)
    (lines : List String) (h : Heap) (r : Option Nat)
    (hg : ∀ e ∈ gizmos, GizmoWf e.2)
    (hok : parseNk gizmos stem isG lines = .ok (h, r)) : InvHeap h := by
  unfold parseNk at hok
  have hinit : ∀ st1 : PState, InvState st1 →
      (match parseLines gizmos stem lines st1 with
       | .error e => Except.error e
       | .ok st => Except.ok (finishParse st.heap st.parentsStack)) = .ok (h, r) →
      InvHeap h := by
    intro st1 hs1 hok1
    cases hpl : parseLines gizmos stem lines st1 with
    | error e => rw [hpl] at hok1; cases hok1
    | ok stf =>
      rw [hpl] at hok1
      dsimp only at hok1
      rw [finishParse_eq] at hok1
      injection hok1 with hpair
      injection hpair with hh hr
      rw [← hh]
      exact (parseLinesFuel_inv gizmos stem hg lines.length lines st1 stf hs1 hpl).1
  cases isG with
  | false => exact hinit initState invState_init hok
  | true =>
    dsimp only at hok
    cases hb : buildNode (initState.heap) "Root" [] with
    | none =>
      rw [hb] at hok
      exact hinit initState invState_init hok
    | some pr =>
      obtain ⟨h0, nid0⟩ := pr
      rw [hb] at hok
      dsimp only at hok
      rw [if_pos rfl] at hok
      have hbs := buildNode_spec _ _ _ _ _ hb
      have hX := invHeapX_of_build _ _ _ _ invState_init.1 hbs
      refine hinit _ ⟨invHeap_of_invHeapX hX ?_, ?_⟩ hok
      · rw [hbs.2.2.2.2.2.1]
        simp [ROOT_NODE_CLASSES]
      · intro p hp
        dsimp only at hp
        rcases List.mem_cons.mp hp with rfl | hp2
        · rw [hbs.2.1, hbs.1]
          omega
        · cases hp2
/-- C4, amended. For every node of a successfully parsed arena, the length of
its input-slot list equals `Int.toNat` of the integer that `eval` produced
from its `inputs` knob (default 1): the slot count follows the evaluated,
zero-clamped arity, which coincides with the knob's stored value exactly when
that value is a nonnegative integer. The gizmo registry entries are assumed
well formed (they are outputs of parses themselves). -/
theorem c4_inputs_length_matches_eval_amended (gizmos : List (String × Gizmo)) (stem : String)
    (isG : Bool) (lines : List String) (h : Heap) (r : Option Nat)
    (hg : ∀ e ∈ gizmos, GizmoWf e.2)
    (hok : parseNk gizmos stem isG lines = .ok (h, r)) :
    (∀ i, i < Heap.len h → ∃ n : Int,
      evalInputs (getKnobD (Heap.get h i).knobs "inputs" (.int 1)) = some n ∧
      (Heap.get h i).inputs.length = n.toNat) ∧
    (∀ i, i < Heap.len h → ∀ n : Int,
      getKnobD (Heap.get h i).knobs "inputs" (.int 1) = .int n → 0 ≤ n →
      ((Heap.get h i).inputs.length : Int) = n) := by
  have hbase : ∀ i, i < Heap.len h → ∃ n : Int,
      evalInputs (getKnobD (Heap.get h i).knobs "inputs" (.int 1)) = some n ∧
      (Heap.get h i).inputs.length = n.toNat :=
    fun i hi => (parseNk_invHeap gizmos stem isG lines h r hg hok).1 i hi
  refine ⟨hbase, fun i hi n hkn hn => ?_⟩
  obtain ⟨m, hm, hl⟩ := hbase i hi
  rw [hkn] at hm
  injection hm with hm2
  rw [hl, ← hm2, Int.toNat_of_nonneg hn]

/-- C4, witness: in the parse of a `Root`/`Blur inputs 2` scene, the `Blur`
node's slot list has length `toNat 2 = 2`. -/
theorem c4_inputs_length_matches_eval_amended_witness :
    ∃ n : Int,
      evalInputs (getKnobD (Heap.get
        [{ class_ := "Root", knobs := [("inputs", KnobValue.int 1)], inputs := [none],
           outputs := [some 1], children := [1], parent := none, is_gizmo := false,
           clone_suffix := "", source_node := none, clones := [] },
         { class_ := "Blur", knobs := [("inputs", KnobValue.int 2)], inputs := [some 0, none],
           outputs := [], children := [], parent := some 0, is_gizmo := false,
           clone_suffix := "", source_node := none, clones := [] }] 1).knobs "inputs"
        (.int 1)) = some n ∧
      (Heap.get
        [{ class_ := "Root", knobs := [("inputs", KnobValue.int 1)], inputs := [none],
           outputs := [some 1], children := [1], parent := none, is_gizmo := false,
           clone_suffix := "", source_node := none, clones := [] },
         { class_ := "Blur", knobs := [("inputs", KnobValue.int 2)], inputs := [some 0, none],
           outputs := [], children := [], parent := some 0, is_gizmo := false,
           clone_suffix := "", source_node := none, clones := [] }] 1).inputs.length = n.toNat :=
  (c4_inputs_length_matches_eval_amended [] "scene" false
    ["Root \x7b\n", "\x7d\n", "Blur \x7b\n", " inputs 2\n", "\x7d\n"] _ (some 0)
    (by simp) (by decide)).1 1 (by decide)

/-- C5. In every successfully parsed arena, every node whose class is not a
root class (`Root`, `LiveGroupInfo` — such nodes are the top-of-scope markers
and are never parented) has a live parent and appears exactly once in that
parent's children sequence. This covers nodes materialised as deep-copied
children of a gizmo instance: the copies' recorded parent is the copied
prototype holder, in whose (copied) children each appears exactly once,
provided the registry entries are well formed (they are outputs of parses
themselves). -/
theorem c5_non_root_once_in_parent_children (gizmos : List (String × Gizmo)) (stem : String)
    (isG : Bool) (lines : List String) (h : Heap) (r : Option Nat)
    (hg : ∀ e ∈ gizmos, GizmoWf e.2)
    (hok : parseNk gizmos stem isG lines = .ok (h, r)) :
    ∀ i, i < Heap.len h → (Heap.get h i).class_ ∉ ROOT_NODE_CLASSES →
      ∃ p, p < Heap.len h ∧ (Heap.get h i).parent = some p ∧
        List.count i (Heap.get h p).children = 1 :=
  fun i hi hcl => (parseNk_invHeap gizmos stem isG lines h r hg hok).2.2 i hi hcl

/-- C5, witness: in the parse of a `Root`/`Blur` scene, the `Blur` node's
recorded parent is the `Root` (node 0) and it occurs once in its children. -/
theorem c5_non_root_once_in_parent_children_witness :
    ∃ p, p < Heap.len
        [{ class_ := "Root", knobs := [("inputs", KnobValue.int 1)], inputs := [none],
           outputs := [some 1], children := [1], parent := none, is_gizmo := false,
           clone_suffix := "", source_node := none, clones := [] },
         { class_ := "Blur", knobs := [("inputs", KnobValue.int 2)], inputs := [some 0, none],
           outputs := [], children := [], parent := some 0, is_gizmo := false,
           clone_suffix := "", source_node := none, clones := [] }] ∧
      (Heap.get
        [{ class_ := "Root", knobs := [("inputs", KnobValue.int 1)], inputs := [none],
           outputs := [some 1], children := [1], parent := none, is_gizmo := false,
           clone_suffix := "", source_node := none, clones := [] },
         { class_ := "Blur", knobs := [("inputs", KnobValue.int 2)], inputs := [some 0, none],
           outputs := [], children := [], parent := some 0, is_gizmo := false,
           clone_suffix := "", source_node := none, clones := [] }] 1).parent = some p ∧
      List.count 1 (Heap.get
        [{ class_ := "Root", knobs := [("inputs", KnobValue.int 1)], inputs := [none],
           outputs := [some 1], children := [1], parent := none, is_gizmo := false,
           clone_suffix := "", source_node := none, clones := [] },
         { class_ := "Blur", knobs := [("inputs", KnobValue.int 2)], inputs := [some 0, none],
           outputs := [], children := [], parent := some 0, is_gizmo := false,
           clone_suffix := "", source_node := none, clones := [] }] p).children = 1 :=
  c5_non_root_once_in_parent_children [] "scene" false
    ["Root \x7b\n", "\x7d\n", "Blur \x7b\n", " inputs 2\n", "\x7d\n"] _ (some 0)
    (by simp) (by decide) 1 (by decide) (by decide)

end NukeParser
